import Mathlib

set_option maxHeartbeats 1000000

/-!
Verification of the simulated-annealing batch scheduler.

The two Python sources are shallowly embedded here:
* sa_batch_optimizer.py (class SABatchOptimizer): an ordering-based optimizer.
  A solution is a dict mapping each resource to an ordered list of task
  indices; we embed it as an association list `List (Nat × List Nat)` in dict
  iteration order (insertion order in Python), which matters because
  finish times are shared across the per-resource loops of evaluate_solution.
* simulated_annealing_batch.py (class SimulatedAnnealingBatchScheduler):
  a batch-list optimizer whose solutions are lists of batch records.

Python numbers are embedded as `Int` (durations, times, costs) and `ℚ` where
temperatures are concerned.  Fallible code paths (a non-positive capacity
makes evaluate_solution raise a ValueError on an empty max, and makes
construct_batch_schedule loop forever) are embedded as `Option`, returning
`none` exactly where the Python call does not return normally.
Randomness is resolved into explicit oracle arguments: every random draw the
Python code makes becomes a parameter, and theorems quantify over all draws.
-/

/-- The problem collaborator interface consumed by both optimizers:
    per-task type, duration, owning resource and predecessor list, and
    per-resource capacity (a Python int, so embedded as `Int` to allow the
    zero-or-negative capacities discussed by the error-handling design). -/
structure Problem where
  nb_tasks : Nat
  resources : Nat → Nat
  types : Nat → Nat
  duration : Nat → Int
  capacity : Nat → Int
  predecessors : Nat → List Nat

/-- A batch record, mirroring the dictionaries built by
    construct_batch_schedule and mutated by the batch-list moves.
    The field named end in Python is called stop here (end is a Lean keyword). -/
structure Batch where
  resource : Nat
  tasks : List Nat
  start : Int
  stop : Int
  deriving DecidableEq, Repr

/-- Placeholder batch used to totalize list indexing; every theorem carries
    bounds hypotheses making the placeholder irrelevant. -/
def dummyBatch : Batch := ⟨0, [], 0, 0⟩

instance : Inhabited Batch := ⟨dummyBatch⟩

/-- The inner while loop shared by evaluate_solution and
    construct_batch_schedule: having already put k same-type tasks into the
    current batch, keep appending tasks while the batch stays below the
    capacity and the next task has the batch type.  Returns the appended
    tasks and the remaining suffix. -/
def formBatchRest (p : Problem) (cap : Int) (bt : Nat) : Int → List Nat → List Nat × List Nat
  | _, [] => ([], [])
  | k, t :: ts =>
    if k < cap ∧ p.types t = bt then
      let res := formBatchRest p cap bt (k + 1) ts
      (t :: res.1, res.2)
    else ([], t :: ts)

/-- One pass of the two nested while loops of evaluate_solution and
    construct_batch_schedule, carrying the currently open batch cur
    (always non-empty, its type being the type of its first task): the next
    task joins cur exactly under the Python condition
    len(batch) < capacity and types[task] == batch_type, otherwise cur is
    emitted and a new batch starts. -/
def groupGo (p : Problem) (cap : Int) (bt : Nat) (cur : List Nat) : List Nat → List (List Nat)
  | [] => [cur]
  | t :: ts =>
    if (cur.length : Int) < cap ∧ p.types t = bt then
      groupGo p cap bt (cur ++ [t]) ts
    else cur :: groupGo p cap (p.types t) [t] ts

/-- Decompose a task ordering into the consecutive same-type batches formed by
    the while loops of evaluate_solution and construct_batch_schedule.
    With a non-positive capacity the Python loops never place the first task
    in a batch (evaluate_solution then raises on max of an empty sequence and
    construct_batch_schedule never advances), embedded as `none`. -/
def batchesOf (p : Problem) (cap : Int) : List Nat → Option (List (List Nat))
  | [] => some []
  | t :: ts => if 0 < cap then some (groupGo p cap (p.types t) [t] ts) else none

/-- Maximum duration over a batch, i.e. the Python expression
    max(problem.duration[t] for t in batch), with the `if batch else 0`
    default of construct_batch_schedule for the empty case. -/
def maxDur (p : Problem) : List Nat → Int
  | [] => 0
  | t :: ts => ts.foldl (fun d u => max d (p.duration u)) (p.duration t)

/-- Finish-time map: task index to computed finish time, transient per
    evaluation, mirroring the Python dict finish_times. -/
def FT : Type := Nat → Option Int

/-- The empty finish-time map. -/
def emptyFT : FT := fun _ => none

/-- One predecessor check inside the batch-start loop of evaluate_solution,
    on the accumulator (batch_start, penalty): a scheduled predecessor
    raises the batch start to its finish time, an unscheduled one adds
    1000 to the penalty. -/
def predStep (ft : FT) (acc : Int × Int) (pr : Nat) : Int × Int :=
  match ft pr with
  | some f => (max acc.1 f, acc.2)
  | none => (acc.1, acc.2 + 1000)

/-- The batch-start / unscheduled-predecessor double loop of
    evaluate_solution: for each task of the batch, fold predStep over its
    predecessors. -/
def batchStartPen (p : Problem) (ft : FT) (start pen : Int) (batch : List Nat) : Int × Int :=
  batch.foldl (fun acc t => (p.predecessors t).foldl (predStep ft) acc) (start, pen)

/-- Record the batch finish time for every task of the batch. -/
def updateFT (ft : FT) (batch : List Nat) (fin : Int) : FT :=
  batch.foldl (fun f t => Function.update f t (some fin)) ft

/-- The per-resource scheduling loop body of evaluate_solution, iterated over
    the batches of one resource: threads current time, finish times,
    makespan and penalty. -/
def evalBatches (p : Problem) : List (List Nat) → Int → FT → Int → Int → FT × Int × Int
  | [], _, ft, mk, pen => (ft, mk, pen)
  | b :: bs, ct, ft, mk, pen =>
    let sp := batchStartPen p ft ct pen b
    let fin := sp.1 + maxDur p b
    evalBatches p bs fin (updateFT ft b fin) (max mk fin) sp.2

/-- The resource loop of evaluate_solution over the solution dict in
    iteration order; finish times, makespan and penalty are global while
    current time restarts at 0 for each resource. -/
def evalResources (p : Problem) : List (Nat × List Nat) → FT → Int → Int → Option (FT × Int × Int)
  | [], ft, mk, pen => some (ft, mk, pen)
  | (r, l) :: rest, ft, mk, pen =>
    match batchesOf p (p.capacity r) l with
    | some bs =>
      let res := evalBatches p bs 0 ft mk pen
      evalResources p rest res.1 res.2.1 res.2.2
    | none => none

/-- The final global pass of evaluate_solution: 1000 penalty for every pair
    (t, pr) with pr a predecessor of t whose recorded finish time exceeds
    the finish time of t, missing entries defaulting to 0. -/
def globalPenalty (p : Problem) (ft : FT) : Int :=
  (List.range p.nb_tasks).foldl (fun acc t =>
    (p.predecessors t).foldl (fun acc2 pr =>
      if (ft pr).getD 0 > (ft t).getD 0 then acc2 + 1000 else acc2) acc) 0

/-- SABatchOptimizer.evaluate_solution: returns the objective
    (makespan plus penalty) and the finish-time map. -/
def evaluate_solution (p : Problem) (sol : List (Nat × List Nat)) : Option (Int × FT) :=
  (evalResources p sol emptyFT 0 0).map fun res =>
    (res.2.1 + res.2.2 + globalPenalty p res.1, res.1)

/-- The penalty accumulated during the scheduling loops of evaluate_solution
    (its variable penalty as it stands after the resource loop, before the
    global pass): exactly the unscheduled-predecessor charges. -/
def sched_penalty (p : Problem) (sol : List (Nat × List Nat)) : Option Int :=
  (evalResources p sol emptyFT 0 0).map fun res => res.2.2

/-- The full penalty part of the objective of evaluate_solution:
    unscheduled-predecessor charges plus the global precedence-violation
    charges. -/
def eval_penalty (p : Problem) (sol : List (Nat × List Nat)) : Option Int :=
  (evalResources p sol emptyFT 0 0).map fun res => res.2.2 + globalPenalty p res.1

/-- The per-resource batch construction of construct_batch_schedule:
    batches get consecutive start times from 0, each ending after its
    maximal task duration (no predecessor adjustment there). -/
def buildBatches (p : Problem) (r : Nat) : List (List Nat) → Int → List Batch
  | [], _ => []
  | b :: bs, ct =>
    let fin := ct + maxDur p b
    ⟨r, b, ct, fin⟩ :: buildBatches p r bs fin

/-- The resource loop of construct_batch_schedule, concatenating batch
    records in dict iteration order. -/
def constructBatches (p : Problem) : List (Nat × List Nat) → Option (List Batch)
  | [] => some []
  | (r, l) :: rest =>
    match batchesOf p (p.capacity r) l with
    | some bs =>
      match constructBatches p rest with
      | some acc => some (buildBatches p r bs 0 ++ acc)
      | none => none
    | none => none

/-- Comparison used by the stable sorts of the source (Python sort and
    sorted with key start: ascending batch start). -/
def startLE (a b : Batch) : Prop := a.start ≤ b.start

instance : DecidableRel startLE :=
  fun a b => inferInstanceAs (Decidable (a.start ≤ b.start))

/-- Python list.sort / sorted with key start: a stable ascending sort,
    embedded as insertion sort (any two stable sorts by the same key agree
    pointwise, and insertion sort is kernel-computable). -/
def sortByStart (bs : List Batch) : List Batch := bs.insertionSort startLE

/-- SABatchOptimizer.construct_batch_schedule: build all batch records and
    sort them by start time (stable). -/
def construct_batch_schedule (p : Problem) (sol : List (Nat × List Nat)) :
    Option (List Batch) :=
  (constructBatches p sol).map fun bs => sortByStart bs

/-! ### Concrete instances and spec-modelled comparison definitions -/

/-- The 3-task chain instance of the spec: task 1 depends on task 0 and
    task 2 on task 1, all on resource 0 with capacity 1, with arbitrary
    (in the claim: positive) durations. -/
def chainProblem (d0 d1 d2 : Int) : Problem where
  nb_tasks := 3
  resources := fun _ => 0
  types := fun _ => 0
  duration := fun t => if t = 0 then d0 else if t = 1 then d1 else d2
  capacity := fun _ => 1
  predecessors := fun t => if t = 1 then [0] else if t = 2 then [1] else []

/-- A 3-task instance in which task 2 has the two unscheduled-at-batch-time
    predecessors 0 and 1, all on resource 0 with capacity 1 and unit
    durations. -/
def fanProblem : Problem where
  nb_tasks := 3
  resources := fun _ => 0
  types := fun _ => 0
  duration := fun _ => 1
  capacity := fun _ => 1
  predecessors := fun t => if t = 2 then [0, 1] else []

/-- A 3-task single-resource instance with capacity 2: tasks 0 and 1 share a
    type and form one batch, task 2 has another type. -/
def capProblem : Problem where
  nb_tasks := 3
  resources := fun _ => 0
  types := fun t => if t = 2 then 1 else 0
  duration := fun t => if t = 0 then 5 else if t = 1 then 3 else 4
  capacity := fun _ => 2
  predecessors := fun _ => []

/-- Number of (task, predecessor) pairs of a batch whose predecessor has no
    recorded finish time yet. -/
def missingPredCount (p : Problem) (ft : FT) (batch : List Nat) : Nat :=
  (batch.map fun t => (p.predecessors t).countP fun pr => (ft pr).isNone).sum

/-- Modelled from the spec sentence behind claim C3 (a large fixed amount
    for each batch whose start was computed before a predecessor finish
    time was known): same schedule walk as evalBatches, but the penalty
    grows by exactly 1000 per batch that has at least one unscheduled
    predecessor, however many tasks or predecessors are involved. -/
def specEvalBatches (p : Problem) : List (List Nat) → Int → FT → Int → FT × Int
  | [], _, ft, pen => (ft, pen)
  | b :: bs, ct, ft, pen =>
    let sp := batchStartPen p ft ct 0 b
    let missing := b.any fun t => (p.predecessors t).any fun pr => (ft pr).isNone
    let fin := sp.1 + maxDur p b
    specEvalBatches p bs fin (updateFT ft b fin) (if missing then pen + 1000 else pen)

/-- Modelled from the spec: resource loop of the per-batch penalty reading
    of claim C3. -/
def specEvalResources (p : Problem) : List (Nat × List Nat) → FT → Int → Option (FT × Int)
  | [], ft, pen => some (ft, pen)
  | (r, l) :: rest, ft, pen =>
    match batchesOf p (p.capacity r) l with
    | some bs =>
      let res := specEvalBatches p bs 0 ft pen
      specEvalResources p rest res.1 res.2
    | none => none

/-- Modelled from the spec: the unscheduled-predecessor penalty as claim C3
    states it, charged once per affected batch. -/
def spec_sched_penalty (p : Problem) (sol : List (Nat × List Nat)) : Option Int :=
  (specEvalResources p sol emptyFT 0).map Prod.snd

/-! ### Neighborhood moves -/

/-- Swap of two positions: the Python simultaneous assignment
    tasks[i], tasks[j] = tasks[j], tasks[i]. -/
def swapMove (l : List Nat) (i j : Nat) : List Nat :=
  (l.set i (l.getD j 0)).set j (l.getD i 0)

/-- Relocation: task = tasks.pop(i) followed by tasks.insert(j, task). -/
def relocateMove (l : List Nat) (i j : Nat) : List Nat :=
  (l.eraseIdx i).insertIdx j (l.getD i 0)

/-- The per-resource body of SABatchOptimizer.neighbor_solution with the
    random draws resolved: the guarded no-op for sequences shorter than 2,
    then a coin between swap and relocation. -/
def applyMove (l : List Nat) (coin : Bool) (i j : Nat) : List Nat :=
  if l.length < 2 then l
  else if coin then swapMove l i j else relocateMove l i j

/-- SABatchOptimizer.neighbor_solution: copy the solution and mutate the
    ordering of the chosen resource r. -/
def neighbor_solution (sol : List (Nat × List Nat)) (r : Nat) (coin : Bool) (i j : Nat) :
    List (Nat × List Nat) :=
  sol.map fun e => if e.1 = r then (e.1, applyMove e.2 coin i j) else e

/-- The Python list comprehension
    [b for j, b in enumerate(batches) if j not in \x7bi1, i2\x7d]. -/
def removeIdxs (l : List Batch) (i1 i2 : Nat) : List Batch :=
  (l.enum.filter fun x => decide (x.1 ≠ i1 ∧ x.1 ≠ i2)).map Prod.snd

/-- SimulatedAnnealingBatchScheduler._merge_batches with the random group
    and pair selection resolved into the two indices i1 and i2: abandoned
    when the combined size exceeds the capacity of b1's resource, otherwise
    both batches are removed and the merged batch is appended. -/
def merge_batches (p : Problem) (batches : List Batch) (i1 i2 : Nat) : List Batch :=
  let b1 := batches.getD i1 dummyBatch
  let b2 := batches.getD i2 dummyBatch
  if (b1.tasks.length : Int) + (b2.tasks.length : Int) > p.capacity b1.resource then batches
  else
    removeIdxs batches i1 i2 ++
      [⟨b1.resource, b1.tasks ++ b2.tasks, min b1.start b2.start, max b1.stop b2.stop⟩]

/-- SimulatedAnnealingBatchScheduler._split_batch with the random splittable
    batch and split point resolved: the batch is removed and the two
    sub-batches appended, each keeping the original start and ending after
    the duration of its first task. -/
def split_batch (p : Problem) (batches : List Batch) (idx pt : Nat) : List Batch :=
  let b := batches.getD idx dummyBatch
  let tasks1 := b.tasks.take pt
  let tasks2 := b.tasks.drop pt
  batches.eraseIdx idx ++
    [⟨b.resource, tasks1, b.start, b.start + p.duration (tasks1.getD 0 0)⟩,
     ⟨b.resource, tasks2, b.start, b.start + p.duration (tasks2.getD 0 0)⟩]

/-- The Python expression sorted([b for b in batches if b.resource == r],
    key=start). -/
def sortedResource (batches : List Batch) (r : Nat) : List Batch :=
  sortByStart (batches.filter fun b => decide (b.resource = r))

/-- The shift window of _shift_batches for the chosen batch: idx is the
    position found by resource_batches.index(batch) (first structurally
    equal element), prev_stop is 0 for the first batch, and for the last
    batch the next-gap term (infinite in Python) drops out of the min. -/
def shiftMaxOf (cap : Int) (batches : List Batch) (bi : Nat) : Int :=
  let batch := batches.getD bi dummyBatch
  let rb := sortedResource batches batch.resource
  let idx := rb.indexOf batch
  let prev_stop := if 0 < idx then (rb.getD (idx - 1) dummyBatch).stop else 0
  if idx < rb.length - 1 then
    min cap (min ((rb.getD (idx + 1) dummyBatch).start - batch.stop) (batch.start - prev_stop))
  else
    min cap (batch.start - prev_stop)

/-- SimulatedAnnealingBatchScheduler._shift_batches with the random batch
    choice (by position bi) and the randint draw s resolved: a no-op on the
    empty list and when the shift window is not positive, otherwise both
    start and end of the chosen batch move by s. -/
def shift_batches (cap : Int) (batches : List Batch) (bi : Nat) (s : Int) : List Batch :=
  if batches.isEmpty then batches
  else if shiftMaxOf cap batches bi ≤ 0 then batches
  else
    let b := batches.getD bi dummyBatch
    batches.set bi ⟨b.resource, b.tasks, b.start + s, b.stop + s⟩

/-- One random draw of _generate_neighbor, resolved: which move runs and
    with which inner random choices. -/
inductive MoveChoice where
  | merge (i1 i2 : Nat)
  | split (idx pt : Nat)
  | shift (bi : Nat) (s : Int)
  deriving DecidableEq, Repr

/-- SimulatedAnnealingBatchScheduler._generate_neighbor with the move
    selection and all inner draws resolved into a MoveChoice. -/
def generate_neighbor (p : Problem) (maxIdle : Int) (batches : List Batch) :
    MoveChoice → List Batch
  | .merge i1 i2 => merge_batches p batches i1 i2
  | .split idx pt => split_batch p batches idx pt
  | .shift bi s => shift_batches maxIdle batches bi s

/-- Domain of the random draws each move actually uses in the source
    (sample indices in range and distinct for merge, a batch index for
    split, anything for shift). -/
def ChoiceValid (batches : List Batch) : MoveChoice → Prop
  | .merge i1 i2 => i1 ≠ i2 ∧ i1 < batches.length ∧ i2 < batches.length
  | .split idx _ => idx < batches.length
  | .shift _ _ => True

/-- All tasks of a batch list, in batch order. -/
def tasksOf (bs : List Batch) : List Nat := (bs.map Batch.tasks).flatten

/-! ### Annealing drivers -/

/-- The argument Python would pass to math.exp in the Metropolis test, if
    the or short-circuit reaches it: none when delta is negative (the test
    accepts without evaluating the exponential). -/
def metropolisExpArg (delta temp : ℚ) : Option ℚ :=
  if delta < 0 then none else some (-delta / temp)

/-- The Metropolis acceptance test delta < 0 or random() < exp(-delta/T),
    with the uniform draw and the exponential function abstracted (exact
    rationals have no computable exp; every theorem quantifies over expFn). -/
def metropolisAccept (delta temp draw : ℚ) (expFn : ℚ → ℚ) : Bool :=
  if delta < 0 then true else decide (draw < expFn (-delta / temp))

/-- Constructor parameters of SABatchOptimizer. -/
structure SAParams where
  initial_temperature : ℚ
  final_temperature : ℚ
  cooling_rate : ℚ
  iterations_per_temp : Nat

/-- Loop state of SABatchOptimizer.optimize: current and best solution with
    their objectives, plus a counter indexing the oracle of random draws. -/
structure SAState1 where
  current : List (Nat × List Nat)
  currentObj : Int
  best : List (Nat × List Nat)
  bestObj : Int
  ctr : Nat

/-- One inner iteration of SABatchOptimizer.optimize: generate a neighbor
    (oracle-chosen resource, coin and positions), evaluate it, apply the
    Metropolis test (oracle-provided uniform draw), track the best; none
    when the evaluation raises. -/
def sa1Step (p : Problem) (expFn : ℚ → ℚ) (oracle : Nat → Nat × Bool × Nat × Nat × ℚ)
    (T : ℚ) (st : SAState1) : Option SAState1 :=
  let (r, coin, i, j, draw) := oracle st.ctr
  let cand := neighbor_solution st.current r coin i j
  match evaluate_solution p cand with
  | none => none
  | some (newObj, _) =>
    if metropolisAccept ((newObj - st.currentObj : Int) : ℚ) T draw expFn then
      if newObj < st.bestObj then
        some ⟨cand, newObj, cand, newObj, st.ctr + 1⟩
      else some ⟨cand, newObj, st.best, st.bestObj, st.ctr + 1⟩
    else some ⟨st.current, st.currentObj, st.best, st.bestObj, st.ctr + 1⟩

/-- The inner for loop of SABatchOptimizer.optimize. -/
def sa1Inner (p : Problem) (expFn : ℚ → ℚ) (oracle : Nat → Nat × Bool × Nat × Nat × ℚ)
    (T : ℚ) : Nat → SAState1 → Option SAState1
  | 0, st => some st
  | n + 1, st =>
    match sa1Step p expFn oracle T st with
    | none => none
    | some st2 => sa1Inner p expFn oracle T n st2

/-- The while loop of SABatchOptimizer.optimize (T starts at the initial
    temperature, multiplies by the cooling rate, stops at or below the
    final temperature), bounded by fuel: with fuel exhausted the state is
    returned as-is, which no theorem relies on below the real exit. -/
def sa1Outer (p : Problem) (expFn : ℚ → ℚ) (oracle : Nat → Nat × Bool × Nat × Nat × ℚ)
    (finalT coolRate : ℚ) (iters : Nat) : Nat → ℚ → SAState1 → Option SAState1
  | 0, _, st => some st
  | fuel + 1, T, st =>
    if T > finalT then
      match sa1Inner p expFn oracle T iters st with
      | none => none
      | some st2 => sa1Outer p expFn oracle finalT coolRate iters fuel (T * coolRate) st2
    else some st

/-- SABatchOptimizer.optimize with the initial random shuffle resolved into
    the given initial ordering solution: evaluate it, run the cooling loop,
    and return the batch schedule of the best ordering with the best
    objective. -/
def sa_optimize (p : Problem) (params : SAParams) (expFn : ℚ → ℚ)
    (oracle : Nat → Nat × Bool × Nat × Nat × ℚ) (initSol : List (Nat × List Nat))
    (fuel : Nat) : Option (List Batch × Int) :=
  match evaluate_solution p initSol with
  | none => none
  | some (obj, _) =>
    match sa1Outer p expFn oracle params.final_temperature params.cooling_rate
        params.iterations_per_temp fuel params.initial_temperature
        ⟨initSol, obj, initSol, obj, 0⟩ with
    | none => none
    | some st =>
      match construct_batch_schedule p st.best with
      | some sched => some (sched, st.bestObj)
      | none => none

/-- Constructor parameters of SimulatedAnnealingBatchScheduler. -/
structure SA2Params where
  initial_temp : ℚ
  cooling_rate : ℚ
  iterations_per_temp : Nat
  max_idle_shift : Int

/-- Loop state of SimulatedAnnealingBatchScheduler.optimize. -/
structure SAState2 where
  current : List Batch
  currentCost : Int
  best : List Batch
  bestCost : Int
  ctr : Nat

/-- One inner iteration of SimulatedAnnealingBatchScheduler.optimize; the
    cost function problem.evaluate_solution belongs to the external problem
    collaborator and is abstracted as evalFn. -/
def sa2Step (p : Problem) (evalFn : List Batch → Int) (maxIdle : Int) (expFn : ℚ → ℚ)
    (oracle : Nat → MoveChoice × ℚ) (T : ℚ) (st : SAState2) : SAState2 :=
  let (c, draw) := oracle st.ctr
  let cand := generate_neighbor p maxIdle st.current c
  let candCost := evalFn cand
  if metropolisAccept ((candCost - st.currentCost : Int) : ℚ) T draw expFn then
    if candCost < st.bestCost then ⟨cand, candCost, cand, candCost, st.ctr + 1⟩
    else ⟨cand, candCost, st.best, st.bestCost, st.ctr + 1⟩
  else ⟨st.current, st.currentCost, st.best, st.bestCost, st.ctr + 1⟩

/-- The inner for loop of SimulatedAnnealingBatchScheduler.optimize. -/
def sa2Inner (p : Problem) (evalFn : List Batch → Int) (maxIdle : Int) (expFn : ℚ → ℚ)
    (oracle : Nat → MoveChoice × ℚ) (T : ℚ) : Nat → SAState2 → SAState2
  | 0, st => st
  | n + 1, st => sa2Inner p evalFn maxIdle expFn oracle T n
      (sa2Step p evalFn maxIdle expFn oracle T st)

/-- The while temp > 1e-5 loop of SimulatedAnnealingBatchScheduler.optimize
    (the floor 1e-5 is hardcoded in the source), bounded by fuel. -/
def sa2Outer (p : Problem) (evalFn : List Batch → Int) (maxIdle : Int) (expFn : ℚ → ℚ)
    (oracle : Nat → MoveChoice × ℚ) (coolRate : ℚ) (iters : Nat) :
    Nat → ℚ → SAState2 → SAState2
  | 0, _, st => st
  | fuel + 1, T, st =>
    if T > (1 : ℚ) / 100000 then
      sa2Outer p evalFn maxIdle expFn oracle coolRate iters fuel (T * coolRate)
        (sa2Inner p evalFn maxIdle expFn oracle T iters st)
    else st

/-- SimulatedAnnealingBatchScheduler.optimize with the initial solution
    given (the initial_solution parameter of the source; otherwise it comes
    from the external problem.random_solution), returning best solution and
    best cost. -/
def sa_scheduler_optimize (p : Problem) (evalFn : List Batch → Int) (params : SA2Params)
    (expFn : ℚ → ℚ) (oracle : Nat → MoveChoice × ℚ) (initSol : List Batch)
    (fuel : Nat) : List Batch × Int :=
  let c0 := evalFn initSol
  let st := sa2Outer p evalFn params.max_idle_shift expFn oracle params.cooling_rate
    params.iterations_per_temp fuel params.initial_temp ⟨initSol, c0, initSol, c0, 0⟩
  (st.best, st.bestCost)

instance : IsTotal Batch startLE := ⟨fun a b => le_total a.start b.start⟩

instance : IsTrans Batch startLE := ⟨fun _ _ _ h1 h2 => le_trans h1 h2⟩

/-- A 1-task instance used by concrete driver runs. -/
def oneTaskProblem : Problem where
  nb_tasks := 1
  resources := fun _ => 0
  types := fun _ => 0
  duration := fun _ => 1
  capacity := fun _ => 1
  predecessors := fun _ => []

/-- A 3-task same-type instance with capacity 2, used to drive a merge move
    inside the batch-list optimizer. -/
def mergeProblem : Problem where
  nb_tasks := 3
  resources := fun _ => 0
  types := fun _ => 0
  duration := fun _ => 1
  capacity := fun _ => 2
  predecessors := fun _ => []

/-- One application of the shift move with arbitrary random draws: a batch
    position in range, and a shift within the randint window whenever the
    window is positive (when it is not, the draw is never taken and the
    move is the guard no-op). -/
def ShiftStep (maxIdle : Int) (bs bs2 : List Batch) : Prop :=
  ∃ bi s, bi < bs.length ∧
    (0 < shiftMaxOf maxIdle bs bi →
      -(shiftMaxOf maxIdle bs bi) ≤ s ∧ s ≤ shiftMaxOf maxIdle bs bi) ∧
    bs2 = shift_batches maxIdle bs bi s

/-- The per-position resource and task list of a batch list: everything a
    shift move can never change. -/
def profileOf (bs : List Batch) : List (Nat × List Nat) :=
  bs.map fun b => (b.resource, b.tasks)

/-- Invariant carried across shift moves for a pinned batch B sitting at
    position p0: the profile is fixed, B is still at p0 unchanged, and some
    position q holds a same-resource batch starting no later than B ends
    and sitting after B in the stable start-order (later start, or equal
    start and later position). -/
def ShiftInv (B : Batch) (prof : List (Nat × List Nat)) (p0 : Nat) (bs : List Batch) : Prop :=
  profileOf bs = prof ∧
  ∃ hp : p0 < bs.length, bs[p0] = B ∧
    ∃ q, ∃ hq : q < bs.length, q ≠ p0 ∧ (bs[q]).resource = B.resource ∧
      (bs[q]).start ≤ B.stop ∧
      (B.start < (bs[q]).start ∨ (B.start = (bs[q]).start ∧ p0 < q))

/-! ## Theorems -/

theorem formBatchRest_length_le (p : Problem) (cap : Int) (bt : Nat) :
    ∀ (k : Int) (ts : List Nat), (formBatchRest p cap bt k ts).2.length ≤ ts.length := by
  intro k ts
  induction ts generalizing k with
  | nil => simp [formBatchRest]
  | cons t ts ih =>
    by_cases h : k < cap ∧ p.types t = bt
    · simpa [formBatchRest, h] using Nat.le_succ_of_le (ih (k + 1))
    · simp [formBatchRest, h]

theorem formBatchRest_append (p : Problem) (cap : Int) (bt : Nat) :
    ∀ (k : Int) (ts : List Nat),
      (formBatchRest p cap bt k ts).1 ++ (formBatchRest p cap bt k ts).2 = ts := by
  intro k ts
  induction ts generalizing k with
  | nil => simp [formBatchRest]
  | cons t ts ih =>
    by_cases h : k < cap ∧ p.types t = bt
    · simpa [formBatchRest, h] using ih (k + 1)
    · simp [formBatchRest, h]

/-- Faithfulness of groupGo to the nested-while formulation of the source:
    the first emitted batch is exactly the open batch extended by the inner
    while loop (formBatchRest), and the remaining batches are those of the
    remaining suffix. -/
theorem groupGo_eq_formBatchRest (p : Problem) (cap : Int) (hcap : 0 < cap) :
    ∀ (ts cur : List Nat) (bt : Nat), cur ≠ [] →
      ∃ bs, batchesOf p cap (formBatchRest p cap bt cur.length ts).2 = some bs ∧
        groupGo p cap bt cur ts =
          (cur ++ (formBatchRest p cap bt cur.length ts).1) :: bs := by
  intro ts
  induction ts with
  | nil => intro cur bt _; exact ⟨[], rfl, by simp [groupGo, formBatchRest, batchesOf]⟩
  | cons t ts ih =>
    intro cur bt hcur
    by_cases h : (cur.length : Int) < cap ∧ p.types t = bt
    · obtain ⟨bs, hbs, hgo⟩ := ih (cur ++ [t]) bt (by simp)
      refine ⟨bs, ?_, ?_⟩
      · simpa [formBatchRest, h, Nat.cast_add] using hbs
      · simp only [groupGo, if_pos h, hgo]
        simp [formBatchRest, h, Nat.cast_add]
    · refine ⟨groupGo p cap (p.types t) [t] ts, ?_, ?_⟩
      · simp [formBatchRest, h, batchesOf, hcap]
      · simp [groupGo, h, formBatchRest]

/-- Claim C2: on the 3-task chain with capacity 1 and positive durations,
    the ordering that schedules task 2 before task 1 is evaluated with a
    non-zero precedence penalty (here exactly 2000: one unscheduled
    predecessor and one global violation), and its cost strictly exceeds
    the cost of the correctly ordered solution. -/
theorem chain_misorder_penalized (d0 d1 d2 : Int)
    (h0 : 0 < d0) (h1 : 0 < d1) (h2 : 0 < d2) :
    eval_penalty (chainProblem d0 d1 d2) [(0, [0, 2, 1])] = some 2000 ∧
    (evaluate_solution (chainProblem d0 d1 d2) [(0, [0, 2, 1])]).map Prod.fst =
      some (d0 + d1 + d2 + 2000) ∧
    (evaluate_solution (chainProblem d0 d1 d2) [(0, [0, 1, 2])]).map Prod.fst =
      some (d0 + d1 + d2) ∧
    d0 + d1 + d2 < d0 + d1 + d2 + 2000 := by
  refine ⟨?_, ?_, ?_, by omega⟩ <;>
  · simp [eval_penalty, evaluate_solution, evalResources, batchesOf, groupGo, chainProblem,
      evalBatches, batchStartPen, predStep, updateFT, maxDur, emptyFT, globalPenalty,
      Function.update, List.range, List.range.loop]
    omega

/-- Witness for chain_misorder_penalized at durations 2, 3, 4. -/
theorem chain_misorder_penalized_witness :
    eval_penalty (chainProblem 2 3 4) [(0, [0, 2, 1])] = some 2000 ∧
    (evaluate_solution (chainProblem 2 3 4) [(0, [0, 2, 1])]).map Prod.fst = some (2 + 3 + 4 + 2000) ∧
    (evaluate_solution (chainProblem 2 3 4) [(0, [0, 1, 2])]).map Prod.fst = some (2 + 3 + 4) ∧
    (2 : Int) + 3 + 4 < 2 + 3 + 4 + 2000 :=
  chain_misorder_penalized 2 3 4 (by decide) (by decide) (by decide)

theorem predFold_snd (ft : FT) (prs : List Nat) (acc : Int × Int) :
    (prs.foldl (predStep ft) acc).2 =
      acc.2 + 1000 * (prs.countP fun pr => (ft pr).isNone) := by
  induction prs generalizing acc with
  | nil => simp
  | cons pr prs ih =>
    cases h : ft pr <;>
      simp [List.countP_cons, h, ih, predStep] <;> push_cast <;> ring

/-- Claim C3, amended: the unscheduled-predecessor penalty accumulated while
    computing a batch start equals 1000 per (task, predecessor) pair whose
    predecessor has no finish time yet, so a batch contributes 1000 times
    the number of such pairs, not a fixed 1000. -/
theorem batchStartPen_snd (p : Problem) (ft : FT) (batch : List Nat) (start pen : Int) :
    (batchStartPen p ft start pen batch).2 = pen + 1000 * missingPredCount p ft batch := by
  induction batch generalizing start pen with
  | nil => simp [batchStartPen, missingPredCount]
  | cons t ts ih =>
    have h2 : batchStartPen p ft start pen (t :: ts) =
        batchStartPen p ft ((p.predecessors t).foldl (predStep ft) (start, pen)).1
          ((p.predecessors t).foldl (predStep ft) (start, pen)).2 ts := by
      simp [batchStartPen]
    rw [h2, ih, predFold_snd]
    simp [missingPredCount]
    push_cast
    ring

/-- Counterexample to claim C3 as stated: in fanProblem under the ordering
    [2, 0, 1], exactly one batch (the batch of task 2) sees unscheduled
    predecessors, yet the code accumulates 2000 where the per-batch reading
    of the spec predicts 1000. -/
theorem sched_penalty_per_pair_not_per_batch :
    sched_penalty fanProblem [(0, [2, 0, 1])] = some 2000 ∧
    spec_sched_penalty fanProblem [(0, [2, 0, 1])] = some 1000 ∧
    (2000 : Int) ≠ 1000 := by
  refine ⟨?_, ?_, by decide⟩ <;> rfl

theorem groupGo_flatten (p : Problem) (cap : Int) :
    ∀ (ts : List Nat) (bt : Nat) (cur : List Nat),
      (groupGo p cap bt cur ts).flatten = cur ++ ts := by
  intro ts
  induction ts with
  | nil => intro bt cur; simp [groupGo]
  | cons t ts ih =>
    intro bt cur
    by_cases h : (cur.length : Int) < cap ∧ p.types t = bt
    · simp [groupGo, h, ih]
    · simp [groupGo, h, ih]

theorem groupGo_mem_ne_nil (p : Problem) (cap : Int) :
    ∀ (ts : List Nat) (bt : Nat) (cur : List Nat), cur ≠ [] →
      ∀ b ∈ groupGo p cap bt cur ts, b ≠ [] := by
  intro ts
  induction ts with
  | nil => intro bt cur hcur b hb; simp [groupGo] at hb; simpa [hb]
  | cons t ts ih =>
    intro bt cur hcur b hb
    by_cases h : (cur.length : Int) < cap ∧ p.types t = bt
    · exact ih bt (cur ++ [t]) (by simp) b (by simpa [groupGo, h] using hb)
    · rcases (by simpa [groupGo, h] using hb : b = cur ∨ b ∈ groupGo p cap (p.types t) [t] ts) with
        h1 | h1
      · simpa [h1]
      · exact ih (p.types t) [t] (by simp) b h1

theorem groupGo_mem_length (p : Problem) (cap : Int) (hcap : 0 < cap) :
    ∀ (ts : List Nat) (bt : Nat) (cur : List Nat), (cur.length : Int) ≤ cap →
      ∀ b ∈ groupGo p cap bt cur ts, (b.length : Int) ≤ cap := by
  intro ts
  induction ts with
  | nil => intro bt cur hcur b hb; simp [groupGo] at hb; simpa [hb]
  | cons t ts ih =>
    intro bt cur hcur b hb
    by_cases h : (cur.length : Int) < cap ∧ p.types t = bt
    · refine ih bt (cur ++ [t]) ?_ b (by simpa [groupGo, h] using hb)
      have := h.1
      simp only [List.length_append, List.length_cons, List.length_nil]
      push_cast
      omega
    · rcases (by simpa [groupGo, h] using hb : b = cur ∨ b ∈ groupGo p cap (p.types t) [t] ts) with
        h1 | h1
      · simpa [h1]
      · refine ih (p.types t) [t] ?_ b h1
        simpa using hcap

theorem groupGo_mem_uniform (p : Problem) (cap : Int) :
    ∀ (ts : List Nat) (bt : Nat) (cur : List Nat), (∀ u ∈ cur, p.types u = bt) →
      ∀ b ∈ groupGo p cap bt cur ts, ∀ t1 ∈ b, ∀ t2 ∈ b, p.types t1 = p.types t2 := by
  intro ts
  induction ts with
  | nil =>
    intro bt cur hcur b hb t1 h1 t2 h2
    simp [groupGo] at hb
    subst hb
    rw [hcur t1 h1, hcur t2 h2]
  | cons t ts ih =>
    intro bt cur hcur b hb
    by_cases h : (cur.length : Int) < cap ∧ p.types t = bt
    · refine ih bt (cur ++ [t]) ?_ b (by simpa [groupGo, h] using hb)
      intro u hu
      rcases List.mem_append.mp hu with h1 | h1
      · exact hcur u h1
      · simp at h1; subst h1; exact h.2
    · rcases (by simpa [groupGo, h] using hb : b = cur ∨ b ∈ groupGo p cap (p.types t) [t] ts) with
        h1 | h1
      · subst h1
        intro t1 ht1 t2 ht2
        rw [hcur t1 ht1, hcur t2 ht2]
      · exact ih (p.types t) [t] (by simp) b h1

theorem batchesOf_sound (p : Problem) (cap : Int) (l : List Nat) (bs : List (List Nat))
    (hcap : 0 < cap) (h : batchesOf p cap l = some bs) :
    bs.flatten = l ∧ ∀ b ∈ bs, b ≠ [] ∧ (b.length : Int) ≤ cap ∧
      ∀ t1 ∈ b, ∀ t2 ∈ b, p.types t1 = p.types t2 := by
  cases l with
  | nil =>
    simp [batchesOf] at h
    subst h
    simp
  | cons t ts =>
    simp [batchesOf, hcap] at h
    subst h
    refine ⟨by simpa using groupGo_flatten p cap ts (p.types t) [t], fun b hb => ?_⟩
    refine ⟨groupGo_mem_ne_nil p cap ts (p.types t) [t] (by simp) b hb, ?_, ?_⟩
    · exact groupGo_mem_length p cap hcap ts (p.types t) [t] (by simpa using hcap) b hb
    · exact groupGo_mem_uniform p cap ts (p.types t) [t] (by simp) b hb

theorem buildBatches_map_tasks (p : Problem) (r : Nat) :
    ∀ (bs : List (List Nat)) (ct : Int), (buildBatches p r bs ct).map Batch.tasks = bs := by
  intro bs
  induction bs with
  | nil => intro ct; simp [buildBatches]
  | cons b bs ih => intro ct; simp [buildBatches, ih]

theorem buildBatches_mem (p : Problem) (r : Nat) :
    ∀ (bs : List (List Nat)) (ct : Int), ∀ b ∈ buildBatches p r bs ct,
      b.resource = r ∧ b.tasks ∈ bs := by
  intro bs
  induction bs with
  | nil => intro ct b hb; simp [buildBatches] at hb
  | cons b0 bs ih =>
    intro ct b hb
    rcases (by simpa [buildBatches] using hb :
        b = ⟨r, b0, ct, ct + maxDur p b0⟩ ∨ b ∈ buildBatches p r bs (ct + maxDur p b0)) with
      h1 | h1
    · subst h1; simp
    · have := ih (ct + maxDur p b0) b h1
      exact ⟨this.1, List.mem_cons_of_mem _ this.2⟩

theorem constructBatches_sound (p : Problem) :
    ∀ (sol : List (Nat × List Nat)) (out : List Batch),
      (∀ e ∈ sol, 0 < p.capacity e.1) → constructBatches p sol = some out →
      (out.map Batch.tasks).flatten = (sol.map Prod.snd).flatten ∧
      ∀ b ∈ out, b.tasks ≠ [] ∧ (b.tasks.length : Int) ≤ p.capacity b.resource ∧
        ∀ t1 ∈ b.tasks, ∀ t2 ∈ b.tasks, p.types t1 = p.types t2 := by
  intro sol
  induction sol with
  | nil =>
    intro out _ h
    simp [constructBatches] at h
    subst h
    simp
  | cons e rest ih =>
    intro out hcap h
    obtain ⟨r, l⟩ := e
    rw [constructBatches] at h
    cases hb : batchesOf p (p.capacity r) l with
    | none => rw [hb] at h; cases h
    | some bs =>
      rw [hb] at h
      cases hc : constructBatches p rest with
      | none => rw [hc] at h; cases h
      | some acc =>
        rw [hc] at h
        have hcapr : 0 < p.capacity r := hcap (r, l) (List.mem_cons_self _ _)
        obtain ⟨hflat1, hprops1⟩ := batchesOf_sound p (p.capacity r) l bs hcapr hb
        obtain ⟨hflat2, hprops2⟩ := ih acc (fun e he => hcap e (List.mem_cons_of_mem _ he)) hc
        cases h
        constructor
        · simp only [List.map_append, List.flatten_append, buildBatches_map_tasks, hflat1,
            hflat2, List.map_cons, List.flatten_cons]
        · intro b hbmem
          rcases List.mem_append.mp hbmem with h1 | h1
          · obtain ⟨hr, htasks⟩ := buildBatches_mem p r bs 0 b h1
            obtain ⟨hne, hlen, huni⟩ := hprops1 b.tasks htasks
            exact ⟨hne, by rwa [hr], huni⟩
          · exact hprops2 b h1

theorem countP_mem_of_count_flatten_eq_one (t : Nat) :
    ∀ (L : List (List Nat)), L.flatten.count t = 1 →
      L.countP (fun b => decide (t ∈ b)) = 1 := by
  intro L
  induction L with
  | nil => intro h; simp at h
  | cons b L ih =>
    intro h
    rw [List.flatten_cons, List.count_append] at h
    by_cases hb : t ∈ b
    · have h1 : 0 < b.count t := List.count_pos_iff.mpr hb
      have h2 : L.flatten.count t = 0 := by omega
      have h3 : L.countP (fun c => decide (t ∈ c)) = 0 := by
        rw [List.countP_eq_zero]
        intro c hc
        simp only [decide_eq_true_eq]
        intro hmem
        have h4 : 0 < L.flatten.count t :=
          List.count_pos_iff.mpr (List.mem_flatten.mpr ⟨c, hc, hmem⟩)
        omega
      simp [List.countP_cons, hb, h3]
    · have h0 : b.count t = 0 := List.count_eq_zero.mpr hb
      rw [h0] at h
      simp [List.countP_cons, hb, ih (by omega)]

/-- Claim C1: for an ordering solution with positive capacities in which
    every task appears exactly once, the constructed schedule is
    well-formed: each batch is non-empty, type-homogeneous and within its
    resource capacity, the schedule tasks are a permutation of the
    solution tasks, and every task lies in exactly one batch.  The batches
    built inside evaluate_solution are the same lists (evalResources and
    constructBatches both consume batchesOf), so the statement covers both
    constructions. -/
theorem constructed_schedule_wellformed (p : Problem) (sol : List (Nat × List Nat))
    (sched : List Batch)
    (hcap : ∀ e ∈ sol, 0 < p.capacity e.1)
    (hs : construct_batch_schedule p sol = some sched) :
    (∀ b ∈ sched, b.tasks ≠ [] ∧ (b.tasks.length : Int) ≤ p.capacity b.resource ∧
      ∀ t1 ∈ b.tasks, ∀ t2 ∈ b.tasks, p.types t1 = p.types t2) ∧
    (sched.map Batch.tasks).flatten.Perm ((sol.map Prod.snd).flatten) ∧
    (∀ t : Nat, ((sol.map Prod.snd).flatten).count t = 1 →
      sched.countP (fun b => decide (t ∈ b.tasks)) = 1) := by
  obtain ⟨out, hout, hsorted⟩ :
      ∃ out, constructBatches p sol = some out ∧ sched = sortByStart out := by
    unfold construct_batch_schedule at hs
    cases hc : constructBatches p sol with
    | none => rw [hc] at hs; cases hs
    | some o => rw [hc] at hs; exact ⟨o, rfl, (Option.some.injEq _ _).mp hs |>.symm⟩
  obtain ⟨hflat, hmem⟩ := constructBatches_sound p sol out hcap hout
  have hperm : sched.Perm out := hsorted ▸ List.perm_insertionSort startLE out
  have hmapperm : (sched.map Batch.tasks).Perm (out.map Batch.tasks) := hperm.map _
  have hflatperm : (sched.map Batch.tasks).flatten.Perm ((sol.map Prod.snd).flatten) := by
    have := hmapperm.flatten
    rwa [hflat] at this
  refine ⟨fun b hb => hmem b (hperm.mem_iff.mp hb), hflatperm, fun t ht => ?_⟩
  have hcount : (sched.map Batch.tasks).flatten.count t = 1 := by
    rw [hflatperm.count_eq]
    exact ht
  have := countP_mem_of_count_flatten_eq_one t (sched.map Batch.tasks) hcount
  rwa [List.countP_map] at this

/-- Witness for constructed_schedule_wellformed on the 3-task capacity-2
    instance capProblem with ordering [0, 1, 2]. -/
theorem constructed_schedule_wellformed_witness :
    (∀ b ∈ [Batch.mk 0 [0, 1] 0 5, Batch.mk 0 [2] 5 9],
      b.tasks ≠ [] ∧ (b.tasks.length : Int) ≤ capProblem.capacity b.resource ∧
      ∀ t1 ∈ b.tasks, ∀ t2 ∈ b.tasks, capProblem.types t1 = capProblem.types t2) ∧
    (([Batch.mk 0 [0, 1] 0 5, Batch.mk 0 [2] 5 9].map Batch.tasks).flatten.Perm
      (([(0, [0, 1, 2])].map Prod.snd).flatten)) ∧
    (∀ t : Nat, (([((0 : Nat), [0, 1, 2])].map Prod.snd).flatten).count t = 1 →
      [Batch.mk 0 [0, 1] 0 5, Batch.mk 0 [2] 5 9].countP (fun b => decide (t ∈ b.tasks)) = 1) :=
  constructed_schedule_wellformed capProblem [(0, [0, 1, 2])]
    [Batch.mk 0 [0, 1] 0 5, Batch.mk 0 [2] 5 9] (by decide) (by rfl)

theorem getD_cons_set_perm {α : Type} (d : α) : ∀ (t : List α) (k : Nat), k < t.length →
    ∀ (a : α), (t.getD k d :: t.set k a).Perm (a :: t) := by
  intro t
  induction t with
  | nil => intro k hk; simp at hk
  | cons b s ih =>
    intro k hk a
    cases k with
    | zero => exact List.Perm.swap a b s
    | succ k =>
      have hk' : k < s.length := by simpa using hk
      have h1 : (s.getD k d :: b :: s.set k a).Perm (b :: s.getD k d :: s.set k a) :=
        List.Perm.swap b _ _
      exact h1.trans (((ih k hk' a).cons b).trans (List.Perm.swap a b s))

theorem swapMove_perm_lt : ∀ (i : Nat) (l : List Nat) (j : Nat), i < j → j < l.length →
    (swapMove l i j).Perm l := by
  intro i
  induction i with
  | zero =>
    intro l j hij hj
    match l, j, hij with
    | a :: t, j + 1, _ =>
      have hjt : j < t.length := by simpa using hj
      have h1 : swapMove (a :: t) 0 (j + 1) = t.getD j 0 :: t.set j a := by
        simp [swapMove]
      rw [h1]
      exact getD_cons_set_perm 0 t j hjt a
  | succ i ih =>
    intro l j hij hj
    match l, j, hij with
    | a :: t, j + 1, _ =>
      have h1 : swapMove (a :: t) (i + 1) (j + 1) = a :: swapMove t i j := by
        simp [swapMove]
      rw [h1]
      exact (ih t j (by omega) (by simpa using hj)).cons a

theorem swapMove_perm (l : List Nat) (i j : Nat) (hi : i < l.length) (hj : j < l.length)
    (hij : i ≠ j) : (swapMove l i j).Perm l := by
  rcases Nat.lt_or_ge i j with h | h
  · exact swapMove_perm_lt i l j h hj
  · have hji : j < i := by omega
    have hsymm : swapMove l i j = swapMove l j i := by
      unfold swapMove
      exact List.set_comm _ _ l hij
    rw [hsymm]
    exact swapMove_perm_lt j l i hji hi

theorem insertIdx_perm {α : Type} (x : α) : ∀ (m : List α) (j : Nat), j ≤ m.length →
    (m.insertIdx j x).Perm (x :: m) := by
  intro m
  induction m with
  | nil =>
    intro j hj
    have hj0 : j = 0 := by simpa using hj
    subst hj0
    simp
  | cons a t ih =>
    intro j hj
    cases j with
    | zero => simp
    | succ j =>
      have h1 : (a :: t).insertIdx (j + 1) x = a :: t.insertIdx j x := by
        simp [List.insertIdx_succ_cons]
      rw [h1]
      exact ((ih j (by simpa using hj)).cons a).trans (List.Perm.swap x a t)

theorem eraseIdx_cons_perm {α : Type} (d : α) : ∀ (l : List α) (i : Nat), i < l.length →
    l.Perm (l.getD i d :: l.eraseIdx i) := by
  intro l
  induction l with
  | nil => intro i hi; simp at hi
  | cons a t ih =>
    intro i hi
    cases i with
    | zero => simp
    | succ i =>
      have hi' : i < t.length := by simpa using hi
      have h1 : (a :: t).Perm (t.getD i d :: a :: t.eraseIdx i) :=
        ((ih i hi').cons a).trans (List.Perm.swap _ a _)
      simpa using h1

theorem relocateMove_perm (l : List Nat) (i j : Nat) (hi : i < l.length)
    (hj : j ≤ l.length - 1) : (relocateMove l i j).Perm l := by
  unfold relocateMove
  have hj' : j ≤ (l.eraseIdx i).length := by
    rw [List.length_eraseIdx_of_lt hi]
    exact hj
  exact (insertIdx_perm _ _ j hj').trans (eraseIdx_cons_perm 0 l i hi).symm

theorem applyMove_perm (l : List Nat) (coin : Bool) (i j : Nat)
    (H : 2 ≤ l.length → i < l.length ∧ j < l.length ∧ (coin = true → i ≠ j)) :
    (applyMove l coin i j).Perm l := by
  unfold applyMove
  by_cases h2 : l.length < 2
  · simp [h2]
  · obtain ⟨hi, hj, hij⟩ := H (by omega)
    cases coin with
    | true => simpa [h2] using swapMove_perm l i j hi hj (hij rfl)
    | false =>
      simpa [h2] using relocateMove_perm l i j hi (by omega)

theorem keep_ne_from (l : List Batch) : ∀ (n i : Nat),
    (((l.enumFrom n).filter fun x => decide (x.1 ≠ n + i)).map Prod.snd) = l.eraseIdx i := by
  induction l with
  | nil => intro n i; simp
  | cons a t ih =>
    intro n i
    cases i with
    | zero =>
      have hall : ∀ x ∈ t.enumFrom (n + 1), (decide (x.1 ≠ n + 0)) = true := by
        rw [List.forall_mem_enumFrom]
        intro i hi
        simp only [decide_eq_true_eq]
        omega
      have h0 : (decide ((n : Nat) ≠ n + 0)) = false := by simp
      rw [List.enumFrom_cons, List.filter_cons, h0]
      simp only [Bool.false_eq_true, if_false]
      rw [List.filter_eq_self.mpr hall, List.enumFrom_map_snd]
      simp
    | succ i =>
      have hne : (decide ((n : Nat) ≠ n + (i + 1))) = true := by
        simp only [decide_eq_true_eq]
        omega
      rw [List.enumFrom_cons, List.filter_cons, hne]
      simp only [if_true]
      have harith : ∀ x ∈ t.enumFrom (n + 1), (decide (x.1 ≠ n + (i + 1))) =
          (decide (x.1 ≠ (n + 1) + i)) := by
        intro x _
        have h2 : n + (i + 1) = (n + 1) + i := by omega
        rw [h2]
      rw [List.map_cons, List.filter_congr harith, ih (n + 1) i]
      simp

theorem keep_ne2_from (l : List Batch) : ∀ (n i1 i2 : Nat), i1 < i2 →
    (((l.enumFrom n).filter fun x => decide (x.1 ≠ n + i1 ∧ x.1 ≠ n + i2)).map Prod.snd) =
      (l.eraseIdx i2).eraseIdx i1 := by
  induction l with
  | nil => intro n i1 i2 _; simp
  | cons a t ih =>
    intro n i1 i2 h12
    cases i1 with
    | zero =>
      obtain ⟨k, rfl⟩ : ∃ k, i2 = k + 1 := ⟨i2 - 1, by omega⟩
      have h0 : (decide ((n : Nat) ≠ n + 0 ∧ (n : Nat) ≠ n + (k + 1))) = false := by
        simp only [decide_eq_false_iff_not]
        omega
      rw [List.enumFrom_cons, List.filter_cons, h0]
      simp only [Bool.false_eq_true, if_false]
      have harith : ∀ x ∈ t.enumFrom (n + 1),
          (decide (x.1 ≠ n + 0 ∧ x.1 ≠ n + (k + 1))) = (decide (x.1 ≠ (n + 1) + k)) := by
        rw [List.forall_mem_enumFrom]
        intro i hi
        simp only [decide_eq_decide]
        omega
      rw [List.filter_congr harith, keep_ne_from t (n + 1) k]
      simp
    | succ m =>
      obtain ⟨k, rfl⟩ : ∃ k, i2 = k + 1 := ⟨i2 - 1, by omega⟩
      have hne : (decide ((n : Nat) ≠ n + (m + 1) ∧ (n : Nat) ≠ n + (k + 1))) = true := by
        simp only [decide_eq_true_eq]
        omega
      rw [List.enumFrom_cons, List.filter_cons, hne]
      simp only [if_true]
      have harith : ∀ x ∈ t.enumFrom (n + 1),
          (decide (x.1 ≠ n + (m + 1) ∧ x.1 ≠ n + (k + 1))) =
          (decide (x.1 ≠ (n + 1) + m ∧ x.1 ≠ (n + 1) + k)) := by
        intro x _
        have e1 : n + (m + 1) = (n + 1) + m := by omega
        have e2 : n + (k + 1) = (n + 1) + k := by omega
        rw [e1, e2]
      rw [List.map_cons, List.filter_congr harith, ih (n + 1) m k (by omega)]
      simp

/-- The Python enumerate-filter of _merge_batches removes exactly the two
    chosen positions: for i1 below i2 it is eraseIdx at i2 then at i1. -/
theorem removeIdxs_eq_eraseIdx (l : List Batch) (i1 i2 : Nat) (h12 : i1 < i2) :
    removeIdxs l i1 i2 = (l.eraseIdx i2).eraseIdx i1 := by
  have h := keep_ne2_from l 0 i1 i2 h12
  simpa [removeIdxs, List.enum] using h

theorem removeIdxs_comm (l : List Batch) (i1 i2 : Nat) :
    removeIdxs l i1 i2 = removeIdxs l i2 i1 := by
  unfold removeIdxs
  rw [List.filter_congr]
  intro x _
  simp only [decide_eq_decide]
  constructor
  · rintro ⟨h1, h2⟩; exact ⟨h2, h1⟩
  · rintro ⟨h1, h2⟩; exact ⟨h2, h1⟩

theorem perm_two_eraseIdx (l : List Batch) (i1 i2 : Nat) (h12 : i1 < i2)
    (h2 : i2 < l.length) :
    l.Perm (l.getD i1 dummyBatch :: l.getD i2 dummyBatch :: (l.eraseIdx i2).eraseIdx i1) := by
  have h1 : i1 < l.length := by omega
  have hp2 : l.Perm (l.getD i2 dummyBatch :: l.eraseIdx i2) :=
    eraseIdx_cons_perm dummyBatch l i2 h2
  have h1' : i1 < (l.eraseIdx i2).length := by
    rw [List.length_eraseIdx_of_lt h2]; omega
  have hp1 : (l.eraseIdx i2).Perm
      ((l.eraseIdx i2).getD i1 dummyBatch :: (l.eraseIdx i2).eraseIdx i1) :=
    eraseIdx_cons_perm dummyBatch _ i1 h1'
  have hgd : (l.eraseIdx i2).getD i1 dummyBatch = l.getD i1 dummyBatch := by
    rw [List.getD_eq_getElem _ _ h1', List.getD_eq_getElem _ _ h1]
    exact List.getElem_eraseIdx_of_lt l i2 i1 h1' h12
  exact (hp2.trans ((hgd ▸ hp1).cons _)).trans (List.Perm.swap _ _ _)

/-- Capacity-respecting branch of _merge_batches, as an equation: the two
    chosen positions are removed and the merged batch appended. -/
theorem merge_batches_eq_of_le (p : Problem) (batches : List Batch) (i1 i2 : Nat)
    (h12 : i1 ≠ i2)
    (hle : ((batches.getD i1 dummyBatch).tasks.length : Int) +
      (batches.getD i2 dummyBatch).tasks.length ≤
      p.capacity (batches.getD i1 dummyBatch).resource) :
    merge_batches p batches i1 i2 =
      (batches.eraseIdx (max i1 i2)).eraseIdx (min i1 i2) ++
        [⟨(batches.getD i1 dummyBatch).resource,
          (batches.getD i1 dummyBatch).tasks ++ (batches.getD i2 dummyBatch).tasks,
          min (batches.getD i1 dummyBatch).start (batches.getD i2 dummyBatch).start,
          max (batches.getD i1 dummyBatch).stop (batches.getD i2 dummyBatch).stop⟩] := by
  unfold merge_batches
  rw [if_neg (by omega)]
  congr 1
  rcases Nat.lt_or_ge i1 i2 with hlt | hge
  · rw [removeIdxs_eq_eraseIdx batches i1 i2 hlt]
    rw [Nat.max_eq_right (by omega), Nat.min_eq_left (by omega)]
  · have hlt : i2 < i1 := by omega
    rw [removeIdxs_comm, removeIdxs_eq_eraseIdx batches i2 i1 hlt]
    rw [Nat.max_eq_left (by omega), Nat.min_eq_right (by omega)]

/-- Claim C6: the merge move leaves the batch list unchanged when the
    combined size of the two same-resource same-type batches exceeds the
    capacity, and otherwise replaces exactly the two chosen batches by the
    single merged batch (concatenated tasks, min start, max end), all other
    batches unchanged. -/
theorem merge_move_characterized (p : Problem) (batches : List Batch) (i1 i2 : Nat)
    (h12 : i1 ≠ i2) (h1 : i1 < batches.length) (h2 : i2 < batches.length)
    (hres : (batches.getD i1 dummyBatch).resource = (batches.getD i2 dummyBatch).resource)
    (htype : p.types ((batches.getD i1 dummyBatch).tasks.getD 0 0) =
      p.types ((batches.getD i2 dummyBatch).tasks.getD 0 0)) :
    (((batches.getD i1 dummyBatch).tasks.length : Int) +
        (batches.getD i2 dummyBatch).tasks.length >
        p.capacity (batches.getD i1 dummyBatch).resource →
      merge_batches p batches i1 i2 = batches) ∧
    (((batches.getD i1 dummyBatch).tasks.length : Int) +
        (batches.getD i2 dummyBatch).tasks.length ≤
        p.capacity (batches.getD i1 dummyBatch).resource →
      merge_batches p batches i1 i2 =
        (batches.eraseIdx (max i1 i2)).eraseIdx (min i1 i2) ++
          [⟨(batches.getD i1 dummyBatch).resource,
            (batches.getD i1 dummyBatch).tasks ++ (batches.getD i2 dummyBatch).tasks,
            min (batches.getD i1 dummyBatch).start (batches.getD i2 dummyBatch).start,
            max (batches.getD i1 dummyBatch).stop (batches.getD i2 dummyBatch).stop⟩]) := by
  constructor
  · intro hgt
    unfold merge_batches
    rw [if_pos hgt]
  · intro hle
    exact merge_batches_eq_of_le p batches i1 i2 h12 hle

/-- Witness for merge_move_characterized: two singleton batches of the same
    type on resource 0 with capacity 2. -/
theorem merge_move_characterized_witness :
    ((([Batch.mk 0 [0] 0 1, Batch.mk 0 [1] 1 2].getD 0 dummyBatch).tasks.length : Int) +
        ([Batch.mk 0 [0] 0 1, Batch.mk 0 [1] 1 2].getD 1 dummyBatch).tasks.length >
        capProblem.capacity ([Batch.mk 0 [0] 0 1, Batch.mk 0 [1] 1 2].getD 0 dummyBatch).resource →
      merge_batches capProblem [Batch.mk 0 [0] 0 1, Batch.mk 0 [1] 1 2] 0 1 =
        [Batch.mk 0 [0] 0 1, Batch.mk 0 [1] 1 2]) ∧
    ((([Batch.mk 0 [0] 0 1, Batch.mk 0 [1] 1 2].getD 0 dummyBatch).tasks.length : Int) +
        ([Batch.mk 0 [0] 0 1, Batch.mk 0 [1] 1 2].getD 1 dummyBatch).tasks.length ≤
        capProblem.capacity ([Batch.mk 0 [0] 0 1, Batch.mk 0 [1] 1 2].getD 0 dummyBatch).resource →
      merge_batches capProblem [Batch.mk 0 [0] 0 1, Batch.mk 0 [1] 1 2] 0 1 =
        (([Batch.mk 0 [0] 0 1, Batch.mk 0 [1] 1 2].eraseIdx (max 0 1)).eraseIdx (min 0 1)) ++
          [⟨([Batch.mk 0 [0] 0 1, Batch.mk 0 [1] 1 2].getD 0 dummyBatch).resource,
            ([Batch.mk 0 [0] 0 1, Batch.mk 0 [1] 1 2].getD 0 dummyBatch).tasks ++
              ([Batch.mk 0 [0] 0 1, Batch.mk 0 [1] 1 2].getD 1 dummyBatch).tasks,
            min ([Batch.mk 0 [0] 0 1, Batch.mk 0 [1] 1 2].getD 0 dummyBatch).start
              ([Batch.mk 0 [0] 0 1, Batch.mk 0 [1] 1 2].getD 1 dummyBatch).start,
            max ([Batch.mk 0 [0] 0 1, Batch.mk 0 [1] 1 2].getD 0 dummyBatch).stop
              ([Batch.mk 0 [0] 0 1, Batch.mk 0 [1] 1 2].getD 1 dummyBatch).stop⟩]) :=
  merge_move_characterized capProblem [Batch.mk 0 [0] 0 1, Batch.mk 0 [1] 1 2] 0 1
    (by decide) (by decide) (by decide) (by decide) (by decide)

theorem tasksOf_perm_of_perm {l1 l2 : List Batch} (h : l1.Perm l2) :
    (tasksOf l1).Perm (tasksOf l2) :=
  (h.map _).flatten

theorem set_getD_self {α : Type} : ∀ (l : List α) (i : Nat) (d : α),
    l.set i (l.getD i d) = l := by
  intro l
  induction l with
  | nil => intro i d; rfl
  | cons a t ih =>
    intro i d
    cases i with
    | zero => simp
    | succ i => simpa using ih i d

theorem getD_map {α β : Type} (f : α → β) : ∀ (l : List α) (i : Nat) (d : α),
    (l.map f).getD i (f d) = f (l.getD i d) := by
  intro l
  induction l with
  | nil => intro i d; rfl
  | cons a t ih =>
    intro i d
    cases i with
    | zero => simp
    | succ i => simpa using ih i d

theorem merge_batches_tasksOf (p : Problem) (batches : List Batch) (i1 i2 : Nat)
    (h12 : i1 ≠ i2) (h1 : i1 < batches.length) (h2 : i2 < batches.length) :
    (tasksOf (merge_batches p batches i1 i2)).Perm (tasksOf batches) := by
  by_cases hgt : ((batches.getD i1 dummyBatch).tasks.length : Int) +
      (batches.getD i2 dummyBatch).tasks.length >
      p.capacity (batches.getD i1 dummyBatch).resource
  · unfold merge_batches
    rw [if_pos hgt]
  · rw [merge_batches_eq_of_le p batches i1 i2 h12 (by omega)]
    have hperm : batches.Perm (batches.getD (min i1 i2) dummyBatch ::
        batches.getD (max i1 i2) dummyBatch ::
        (batches.eraseIdx (max i1 i2)).eraseIdx (min i1 i2)) := by
      rcases Nat.lt_or_ge i1 i2 with hlt | hge
      · rw [Nat.max_eq_right (by omega), Nat.min_eq_left (by omega)]
        exact perm_two_eraseIdx batches i1 i2 hlt h2
      · have hlt : i2 < i1 := by omega
        rw [Nat.max_eq_left (by omega), Nat.min_eq_right (by omega)]
        exact perm_two_eraseIdx batches i2 i1 hlt h1
    have htOf := tasksOf_perm_of_perm hperm
    simp only [tasksOf, List.map_cons, List.flatten_cons] at htOf
    simp only [tasksOf, List.map_append, List.flatten_append, List.map_cons,
      List.flatten_cons, List.map_nil, List.flatten_nil, List.append_nil]
    refine List.Perm.trans ?_ htOf.symm
    have hcomm : (((((batches.eraseIdx (max i1 i2)).eraseIdx (min i1 i2)).map
          Batch.tasks).flatten) ++
          ((batches.getD i1 dummyBatch).tasks ++ (batches.getD i2 dummyBatch).tasks)).Perm
        (((batches.getD i1 dummyBatch).tasks ++ (batches.getD i2 dummyBatch).tasks) ++
          ((((batches.eraseIdx (max i1 i2)).eraseIdx (min i1 i2)).map Batch.tasks).flatten)) :=
      List.perm_append_comm
    refine hcomm.trans ?_
    rcases Nat.lt_or_ge i1 i2 with hlt | hge
    · rw [Nat.min_eq_left (by omega)]
      simp only [List.append_assoc]
      rw [Nat.max_eq_right (by omega : i1 ≤ i2)]
    · rw [Nat.min_eq_right (by omega)]
      have hsw : ((batches.getD i1 dummyBatch).tasks ++ (batches.getD i2 dummyBatch).tasks).Perm
          ((batches.getD i2 dummyBatch).tasks ++ (batches.getD i1 dummyBatch).tasks) :=
        List.perm_append_comm
      have := hsw.append_right
        ((((batches.eraseIdx (max i1 i2)).eraseIdx i2).map Batch.tasks).flatten)
      refine this.trans ?_
      simp only [List.append_assoc]
      rw [Nat.max_eq_left (by omega : i2 ≤ i1)]

theorem split_batch_tasksOf (p : Problem) (batches : List Batch) (idx pt : Nat)
    (hidx : idx < batches.length) :
    (tasksOf (split_batch p batches idx pt)).Perm (tasksOf batches) := by
  unfold split_batch
  have hp : batches.Perm (batches.getD idx dummyBatch :: batches.eraseIdx idx) :=
    eraseIdx_cons_perm dummyBatch batches idx hidx
  have htOf := tasksOf_perm_of_perm hp
  simp only [tasksOf, List.map_cons, List.flatten_cons] at htOf
  simp only [tasksOf, List.map_append, List.flatten_append, List.map_cons, List.flatten_cons,
    List.map_nil, List.flatten_nil, List.append_nil]
  rw [List.take_append_drop pt (batches.getD idx dummyBatch).tasks]
  exact List.perm_append_comm.trans htOf.symm

theorem shift_batches_tasksOf (cap : Int) (batches : List Batch) (bi : Nat) (s : Int) :
    tasksOf (shift_batches cap batches bi s) = tasksOf batches := by
  unfold shift_batches
  split
  · rfl
  · split
    · rfl
    · simp only [tasksOf, List.map_set]
      have : (batches.getD bi dummyBatch).tasks =
          (batches.map Batch.tasks).getD bi dummyBatch.tasks := (getD_map Batch.tasks batches bi dummyBatch).symm
      rw [this, set_getD_self]

/-- Claim C7: each neighbor generator call preserves task membership: the
    ordering generator returns a solution with the same resources in the
    same order whose per-resource sequences are permutations of the input
    sequences, and every batch-list move preserves the multiset of all
    batch tasks.  (The input solution itself is untouched: the embedding is
    pure, mirroring the deep copies the Python code mutates.) -/
theorem neighbor_generation_preserves_membership :
    (∀ (sol : List (Nat × List Nat)) (r : Nat) (coin : Bool) (i j : Nat),
      (∀ e ∈ sol, e.1 = r → 2 ≤ e.2.length →
        i < e.2.length ∧ j < e.2.length ∧ (coin = true → i ≠ j)) →
      List.Forall₂ (fun e1 e2 => e1.1 = e2.1 ∧ e2.2.Perm e1.2) sol
        (neighbor_solution sol r coin i j)) ∧
    (∀ (p : Problem) (maxIdle : Int) (batches : List Batch) (c : MoveChoice),
      ChoiceValid batches c →
      (tasksOf (generate_neighbor p maxIdle batches c)).Perm (tasksOf batches)) := by
  constructor
  · intro sol r coin i j H
    unfold neighbor_solution
    induction sol with
    | nil => exact List.Forall₂.nil
    | cons e rest ih =>
      simp only [List.map_cons]
      refine List.Forall₂.cons ?_ (ih fun e2 he h1 h2 => H e2 (List.mem_cons_of_mem _ he) h1 h2)
      by_cases he : e.1 = r
      · rw [if_pos he]
        exact ⟨rfl, applyMove_perm e.2 coin i j fun h2 =>
          H e (List.mem_cons_self _ _) he h2⟩
      · rw [if_neg he]
        exact ⟨rfl, List.Perm.refl _⟩
  · intro p maxIdle batches c hc
    cases c with
    | merge i1 i2 => exact merge_batches_tasksOf p batches i1 i2 hc.1 hc.2.1 hc.2.2
    | split idx pt => exact split_batch_tasksOf p batches idx pt hc
    | shift bi s => exact (shift_batches_tasksOf maxIdle batches bi s) ▸ List.Perm.refl _

/-- Witness for neighbor_generation_preserves_membership: a swap on a
    2-task resource and a split of a 2-task batch. -/
theorem neighbor_generation_preserves_membership_witness :
    List.Forall₂ (fun e1 e2 => e1.1 = e2.1 ∧ e2.2.Perm e1.2) [((0 : Nat), [0, 1])]
      (neighbor_solution [(0, [0, 1])] 0 true 0 1) ∧
    (tasksOf (generate_neighbor capProblem 10 [Batch.mk 0 [0, 1] 0 5]
      (MoveChoice.split 0 1))).Perm (tasksOf [Batch.mk 0 [0, 1] 0 5]) :=
  ⟨neighbor_generation_preserves_membership.1 [(0, [0, 1])] 0 true 0 1 (by decide),
   neighbor_generation_preserves_membership.2 capProblem 10 [Batch.mk 0 [0, 1] 0 5]
     (MoveChoice.split 0 1) (by simp [ChoiceValid])⟩

/-- Claim C10: the Metropolis test is a total function of its inputs; for
    delta below 0 it accepts without evaluating the exponential at all, and
    otherwise the only argument ever passed to the exponential is
    -delta / T, which is non-positive whenever T is positive, so a huge
    positive delta at tiny positive T merely drives the acceptance
    probability toward zero instead of overflowing. -/
theorem metropolis_guard (delta temp draw : ℚ) (expFn : ℚ → ℚ) (htemp : 0 < temp) :
    (delta < 0 → metropolisAccept delta temp draw expFn = true ∧
      metropolisExpArg delta temp = none) ∧
    (0 ≤ delta → ∃ a, metropolisExpArg delta temp = some a ∧ a ≤ 0 ∧
      metropolisAccept delta temp draw expFn = decide (draw < expFn a)) := by
  constructor
  · intro h
    exact ⟨by simp [metropolisAccept, h], by simp [metropolisExpArg, h]⟩
  · intro h
    refine ⟨-delta / temp, by simp [metropolisExpArg, not_lt.mpr h], ?_, ?_⟩
    · apply div_nonpos_of_nonpos_of_nonneg
      · linarith
      · exact htemp.le
    · simp [metropolisAccept, not_lt.mpr h]

/-- Witness for metropolis_guard at delta 5, temperature 2, draw 1/2. -/
theorem metropolis_guard_witness :
    ((5 : ℚ) < 0 → metropolisAccept 5 2 (1/2) (fun _ => 0) = true ∧
      metropolisExpArg 5 2 = none) ∧
    ((0 : ℚ) ≤ 5 → ∃ a, metropolisExpArg 5 2 = some a ∧ a ≤ 0 ∧
      metropolisAccept 5 2 (1/2) (fun _ => 0) = decide ((1/2 : ℚ) < (fun _ => (0 : ℚ)) a)) :=
  metropolis_guard 5 2 (1/2) (fun _ => 0) (by norm_num)

theorem sa1Step_best_le (p : Problem) (expFn : ℚ → ℚ)
    (oracle : Nat → Nat × Bool × Nat × Nat × ℚ) (T : ℚ) (st st2 : SAState1)
    (h : sa1Step p expFn oracle T st = some st2) : st2.bestObj ≤ st.bestObj := by
  unfold sa1Step at h
  rcases horacle : oracle st.ctr with ⟨r, coin, i, j, draw⟩
  rw [horacle] at h
  simp only at h
  cases hev : evaluate_solution p (neighbor_solution st.current r coin i j) with
  | none => rw [hev] at h; cases h
  | some pr =>
    obtain ⟨newObj, ft⟩ := pr
    rw [hev] at h
    simp only at h
    split_ifs at h with hacc hbest
    · cases h; simp; omega
    · cases h; simp
    · cases h; simp

theorem sa1Inner_best_le (p : Problem) (expFn : ℚ → ℚ)
    (oracle : Nat → Nat × Bool × Nat × Nat × ℚ) (T : ℚ) :
    ∀ (n : Nat) (st st2 : SAState1),
      sa1Inner p expFn oracle T n st = some st2 → st2.bestObj ≤ st.bestObj := by
  intro n
  induction n with
  | zero => intro st st2 h; cases h; exact le_refl _
  | succ n ih =>
    intro st st2 h
    unfold sa1Inner at h
    cases hstep : sa1Step p expFn oracle T st with
    | none => rw [hstep] at h; cases h
    | some stm =>
      rw [hstep] at h
      exact le_trans (ih stm st2 h) (sa1Step_best_le p expFn oracle T st stm hstep)

theorem sa1Outer_best_le (p : Problem) (expFn : ℚ → ℚ)
    (oracle : Nat → Nat × Bool × Nat × Nat × ℚ) (finalT coolRate : ℚ) (iters : Nat) :
    ∀ (fuel : Nat) (T : ℚ) (st st2 : SAState1),
      sa1Outer p expFn oracle finalT coolRate iters fuel T st = some st2 →
      st2.bestObj ≤ st.bestObj := by
  intro fuel
  induction fuel with
  | zero => intro T st st2 h; cases h; exact le_refl _
  | succ fuel ih =>
    intro T st st2 h
    unfold sa1Outer at h
    split_ifs at h with hT
    · cases hin : sa1Inner p expFn oracle T iters st with
      | none => rw [hin] at h; cases h
      | some stm =>
        rw [hin] at h
        exact le_trans (ih (T * coolRate) stm st2 h)
          (sa1Inner_best_le p expFn oracle T iters st stm hin)
    · cases h; exact le_refl _

theorem sa2Step_best_le (p : Problem) (evalFn : List Batch → Int) (maxIdle : Int)
    (expFn : ℚ → ℚ) (oracle : Nat → MoveChoice × ℚ) (T : ℚ) (st : SAState2) :
    (sa2Step p evalFn maxIdle expFn oracle T st).bestCost ≤ st.bestCost := by
  unfold sa2Step
  rcases horacle : oracle st.ctr with ⟨c, draw⟩
  simp only
  split_ifs with hacc hbest
  · simp; omega
  · simp
  · simp

theorem sa2Inner_best_le (p : Problem) (evalFn : List Batch → Int) (maxIdle : Int)
    (expFn : ℚ → ℚ) (oracle : Nat → MoveChoice × ℚ) (T : ℚ) :
    ∀ (n : Nat) (st : SAState2),
      (sa2Inner p evalFn maxIdle expFn oracle T n st).bestCost ≤ st.bestCost := by
  intro n
  induction n with
  | zero => intro st; exact le_refl _
  | succ n ih =>
    intro st
    exact le_trans (ih _) (sa2Step_best_le p evalFn maxIdle expFn oracle T st)

theorem sa2Outer_best_le (p : Problem) (evalFn : List Batch → Int) (maxIdle : Int)
    (expFn : ℚ → ℚ) (oracle : Nat → MoveChoice × ℚ) (coolRate : ℚ) (iters : Nat) :
    ∀ (fuel : Nat) (T : ℚ) (st : SAState2),
      (sa2Outer p evalFn maxIdle expFn oracle coolRate iters fuel T st).bestCost ≤
        st.bestCost := by
  intro fuel
  induction fuel with
  | zero => intro T st; exact le_refl _
  | succ fuel ih =>
    intro T st
    unfold sa2Outer
    split_ifs with hT
    · exact le_trans (ih _ _) (sa2Inner_best_le p evalFn maxIdle expFn oracle T iters st)
    · exact le_refl _

/-- Claim C8: in both optimizers the tracked best cost never increases: one
    inner iteration can only lower it, and a completed run returns a best
    cost at most the initial solution's cost. -/
theorem best_cost_monotone :
    (∀ (p : Problem) (expFn : ℚ → ℚ) (oracle : Nat → Nat × Bool × Nat × Nat × ℚ)
       (T : ℚ) (st st2 : SAState1),
      sa1Step p expFn oracle T st = some st2 → st2.bestObj ≤ st.bestObj) ∧
    (∀ (p : Problem) (params : SAParams) (expFn : ℚ → ℚ)
       (oracle : Nat → Nat × Bool × Nat × Nat × ℚ) (initSol : List (Nat × List Nat))
       (fuel : Nat) (sched : List Batch) (c : Int),
      sa_optimize p params expFn oracle initSol fuel = some (sched, c) →
      ∃ obj ft, evaluate_solution p initSol = some (obj, ft) ∧ c ≤ obj) ∧
    (∀ (p : Problem) (evalFn : List Batch → Int) (maxIdle : Int) (expFn : ℚ → ℚ)
       (oracle : Nat → MoveChoice × ℚ) (T : ℚ) (st : SAState2),
      (sa2Step p evalFn maxIdle expFn oracle T st).bestCost ≤ st.bestCost) ∧
    (∀ (p : Problem) (evalFn : List Batch → Int) (params : SA2Params) (expFn : ℚ → ℚ)
       (oracle : Nat → MoveChoice × ℚ) (initSol : List Batch) (fuel : Nat),
      (sa_scheduler_optimize p evalFn params expFn oracle initSol fuel).2 ≤ evalFn initSol) := by
  refine ⟨sa1Step_best_le, ?_, sa2Step_best_le, ?_⟩
  · intro p params expFn oracle initSol fuel sched c h
    unfold sa_optimize at h
    cases hev : evaluate_solution p initSol with
    | none => rw [hev] at h; cases h
    | some pr =>
      obtain ⟨obj, ft⟩ := pr
      rw [hev] at h
      simp only at h
      cases hout : sa1Outer p expFn oracle params.final_temperature params.cooling_rate
          params.iterations_per_temp fuel params.initial_temperature
          ⟨initSol, obj, initSol, obj, 0⟩ with
      | none => rw [hout] at h; cases h
      | some st =>
        rw [hout] at h
        simp only at h
        cases hcs : construct_batch_schedule p st.best with
        | none => rw [hcs] at h; cases h
        | some sched2 =>
          rw [hcs] at h
          cases h
          exact ⟨obj, ft, rfl, sa1Outer_best_le p expFn oracle _ _ _ fuel _ _ st hout⟩
  · intro p evalFn params expFn oracle initSol fuel
    unfold sa_scheduler_optimize
    exact sa2Outer_best_le p evalFn params.max_idle_shift expFn oracle params.cooling_rate
      params.iterations_per_temp fuel params.initial_temp _

/-- Witness for best_cost_monotone: the batch-list optimizer on a 1-batch
    instance with the cost given by batch count. -/
theorem best_cost_monotone_witness :
    (sa2Step oneTaskProblem (fun bs => (bs.length : Int)) 10 (fun _ => 0)
      (fun _ => (MoveChoice.shift 0 0, 0)) 1
      ⟨[Batch.mk 0 [0] 0 1], 1, [Batch.mk 0 [0] 0 1], 1, 0⟩).bestCost ≤ (1 : Int) ∧
    (sa_scheduler_optimize oneTaskProblem (fun bs => (bs.length : Int)) ⟨1, 1/2, 1, 10⟩
      (fun _ => 0) (fun _ => (MoveChoice.shift 0 0, 0)) [Batch.mk 0 [0] 0 1] 30).2 ≤
      (fun bs => ((bs : List Batch).length : Int)) [Batch.mk 0 [0] 0 1] :=
  ⟨best_cost_monotone.2.2.1 oneTaskProblem (fun bs => (bs.length : Int)) 10 (fun _ => 0)
      (fun _ => (MoveChoice.shift 0 0, 0)) 1 ⟨[Batch.mk 0 [0] 0 1], 1, [Batch.mk 0 [0] 0 1], 1, 0⟩,
   best_cost_monotone.2.2.2 oneTaskProblem (fun bs => (bs.length : Int)) ⟨1, 1/2, 1, 10⟩
      (fun _ => 0) (fun _ => (MoveChoice.shift 0 0, 0)) [Batch.mk 0 [0] 0 1] 30⟩

theorem sa1Outer_stopped (p : Problem) (expFn : ℚ → ℚ)
    (oracle : Nat → Nat × Bool × Nat × Nat × ℚ) (finalT coolRate : ℚ) (iters : Nat)
    (T : ℚ) (h : ¬ T > finalT) :
    ∀ (fuel : Nat) (st : SAState1),
      sa1Outer p expFn oracle finalT coolRate iters fuel T st = some st := by
  intro fuel st
  cases fuel with
  | zero => rfl
  | succ fuel => simp [sa1Outer, h]

theorem sa2Outer_stopped (p : Problem) (evalFn : List Batch → Int) (maxIdle : Int)
    (expFn : ℚ → ℚ) (oracle : Nat → MoveChoice × ℚ) (coolRate : ℚ) (iters : Nat)
    (T : ℚ) (h : ¬ T > (1 : ℚ) / 100000) :
    ∀ (fuel : Nat) (st : SAState2),
      sa2Outer p evalFn maxIdle expFn oracle coolRate iters fuel T st = st := by
  intro fuel st
  cases fuel with
  | zero => rfl
  | succ fuel =>
    unfold sa2Outer
    rw [if_neg h]

/-- Counterexample to claim C5: with a temperature floor of 5 above the
    initial temperature 1 (an invalid configuration by the claim), the
    ordering optimizer does not report any configuration error before (or
    instead of) the loop: it returns a normal result built from the initial
    solution. -/
theorem invalid_floor_returns_normally :
    sa_optimize oneTaskProblem ⟨1, 5, 1/2, 1⟩ (fun _ => 0) (fun _ => (0, true, 0, 0, 0))
      [(0, [0])] 3 = some ([Batch.mk 0 [0] 0 1], 1) ∧ (1 : ℚ) ≤ 5 := by
  constructor
  · norm_num [sa_optimize, sa1Outer, evaluate_solution, evalResources, batchesOf, groupGo,
      evalBatches, batchStartPen, predStep, updateFT, maxDur, emptyFT, globalPenalty,
      construct_batch_schedule, constructBatches, buildBatches, sortByStart, oneTaskProblem,
      List.insertionSort, Function.update, List.range, List.range.loop]
  · norm_num

/-- Claim C5, amended: neither optimizer validates its configuration.  A
    temperature floor at or above the initial temperature silently skips
    the whole search loop: the ordering optimizer returns the initial
    solution's schedule and objective, the batch-list optimizer returns
    the initial solution and its cost.  A non-positive capacity is not a
    reported configuration error either: it surfaces as a failure of the
    initial evaluation itself (a ValueError inside evaluate_solution). -/
theorem no_configuration_validation :
    (∀ (p : Problem) (params : SAParams) (expFn : ℚ → ℚ)
       (oracle : Nat → Nat × Bool × Nat × Nat × ℚ) (initSol : List (Nat × List Nat))
       (fuel : Nat),
      params.initial_temperature ≤ params.final_temperature →
      sa_optimize p params expFn oracle initSol fuel =
        match evaluate_solution p initSol with
        | none => none
        | some (obj, _) =>
          match construct_batch_schedule p initSol with
          | some sched => some (sched, obj)
          | none => none) ∧
    (∀ (p : Problem) (params : SAParams) (expFn : ℚ → ℚ)
       (oracle : Nat → Nat × Bool × Nat × Nat × ℚ) (initSol : List (Nat × List Nat))
       (fuel : Nat),
      evaluate_solution p initSol = none →
      sa_optimize p params expFn oracle initSol fuel = none) ∧
    (∀ (p : Problem) (evalFn : List Batch → Int) (params : SA2Params) (expFn : ℚ → ℚ)
       (oracle : Nat → MoveChoice × ℚ) (initSol : List Batch) (fuel : Nat),
      params.initial_temp ≤ (1 : ℚ) / 100000 →
      sa_scheduler_optimize p evalFn params expFn oracle initSol fuel =
        (initSol, evalFn initSol)) := by
  refine ⟨?_, ?_, ?_⟩
  · intro p params expFn oracle initSol fuel hle
    unfold sa_optimize
    cases hev : evaluate_solution p initSol with
    | none => rfl
    | some pr =>
      obtain ⟨obj, ft⟩ := pr
      simp only
      rw [sa1Outer_stopped p expFn oracle _ _ _ _ (by push_neg; exact hle) fuel _]
  · intro p params expFn oracle initSol fuel hev
    unfold sa_optimize
    rw [hev]
  · intro p evalFn params expFn oracle initSol fuel hle
    simp only [sa_scheduler_optimize]
    rw [sa2Outer_stopped p evalFn params.max_idle_shift expFn oracle params.cooling_rate
      params.iterations_per_temp _ (by push_neg; exact hle) fuel _]

/-- Witness for no_configuration_validation on a floor above the initial
    temperature and the hardcoded 1e-5 floor of the batch-list driver. -/
theorem no_configuration_validation_witness :
    (sa_optimize oneTaskProblem ⟨1, 5, 1/2, 1⟩ (fun _ => 0) (fun _ => (0, true, 0, 0, 0))
      [(0, [0])] 3 =
      match evaluate_solution oneTaskProblem [(0, [0])] with
      | none => none
      | some (obj, _) =>
        match construct_batch_schedule oneTaskProblem [(0, [0])] with
        | some sched => some (sched, obj)
        | none => none) ∧
    (sa_scheduler_optimize oneTaskProblem (fun bs => (bs.length : Int)) ⟨1/1000000, 1/2, 1, 10⟩
      (fun _ => 0) (fun _ => (MoveChoice.shift 0 0, 0)) [Batch.mk 0 [0] 0 1] 3 =
      ([Batch.mk 0 [0] 0 1], (fun bs => ((bs : List Batch).length : Int)) [Batch.mk 0 [0] 0 1])) :=
  ⟨no_configuration_validation.1 oneTaskProblem ⟨1, 5, 1/2, 1⟩ (fun _ => 0)
      (fun _ => (0, true, 0, 0, 0)) [(0, [0])] 3 (by norm_num),
   no_configuration_validation.2.2 oneTaskProblem (fun bs => (bs.length : Int))
      ⟨1/1000000, 1/2, 1, 10⟩ (fun _ => 0) (fun _ => (MoveChoice.shift 0 0, 0))
      [Batch.mk 0 [0] 0 1] 3 (by norm_num)⟩

/-- Counterexample to claim C4: a run of the batch-list optimizer that
    accepts one merge move returns a batch schedule that is not sorted by
    start time (the merged batch is appended after later-starting batches
    and nothing re-sorts). -/
theorem scheduler_payload_not_sorted :
    (sa_scheduler_optimize mergeProblem (fun bs => (bs.length : Int)) ⟨1, 1/1000000, 1, 10⟩
        (fun _ => 0) (fun _ => (MoveChoice.merge 0 1, 0))
        [Batch.mk 0 [0] 0 5, Batch.mk 0 [1] 5 10, Batch.mk 0 [2] 10 11] 2) =
      ([Batch.mk 0 [2] 10 11, Batch.mk 0 [0, 1] 0 10], 2) ∧
    ¬ List.Pairwise startLE [Batch.mk 0 [2] 10 11, Batch.mk 0 [0, 1] 0 10] := by
  constructor
  · norm_num [sa_scheduler_optimize, sa2Outer, sa2Inner, sa2Step, metropolisAccept,
      generate_neighbor, merge_batches, removeIdxs, mergeProblem, dummyBatch,
      List.enum, List.enumFrom, List.filter]
  · intro hpair
    have := List.rel_of_pairwise_cons hpair (List.mem_singleton.mpr rfl)
    simp [startLE] at this

/-- Claim C4, amended: the ordering-based optimizer's returned payload (the
    schedule built by construct_batch_schedule from the best ordering) is
    sorted by batch start ascending; for the batch-list optimizer the
    returned schedule need not be sorted, because merge and split append
    batches at the end and shift edits in place, with no re-sort before
    returning. -/
theorem ordering_payload_sorted (p : Problem) (params : SAParams) (expFn : ℚ → ℚ)
    (oracle : Nat → Nat × Bool × Nat × Nat × ℚ) (initSol : List (Nat × List Nat))
    (fuel : Nat) (sched : List Batch) (c : Int)
    (h : sa_optimize p params expFn oracle initSol fuel = some (sched, c)) :
    List.Pairwise startLE sched := by
  unfold sa_optimize at h
  cases hev : evaluate_solution p initSol with
  | none => rw [hev] at h; cases h
  | some pr =>
    obtain ⟨obj, ft⟩ := pr
    rw [hev] at h
    simp only at h
    cases hout : sa1Outer p expFn oracle params.final_temperature params.cooling_rate
        params.iterations_per_temp fuel params.initial_temperature
        ⟨initSol, obj, initSol, obj, 0⟩ with
    | none => rw [hout] at h; cases h
    | some st =>
      rw [hout] at h
      simp only at h
      cases hcs : construct_batch_schedule p st.best with
      | none => rw [hcs] at h; cases h
      | some sched2 =>
        rw [hcs] at h
        cases h
        unfold construct_batch_schedule at hcs
        cases hcb : constructBatches p st.best with
        | none => rw [hcb] at hcs; cases hcs
        | some out =>
          rw [hcb] at hcs
          have heq : sortByStart out = sched := by simpa using hcs
          rw [← heq]
          exact List.sorted_insertionSort startLE out

/-- Witness for ordering_payload_sorted on a concrete completed run. -/
theorem ordering_payload_sorted_witness :
    List.Pairwise startLE [Batch.mk 0 [0] 0 1] :=
  ordering_payload_sorted oneTaskProblem ⟨1, 5, 1/2, 1⟩ (fun _ => 0)
    (fun _ => (0, true, 0, 0, 0)) [(0, [0])] 3 [Batch.mk 0 [0] 0 1] 1
    (by norm_num [sa_optimize, sa1Outer, evaluate_solution, evalResources, batchesOf, groupGo,
      evalBatches, batchStartPen, predStep, updateFT, maxDur, emptyFT, globalPenalty,
      construct_batch_schedule, constructBatches, buildBatches, sortByStart, oneTaskProblem,
      List.insertionSort, Function.update, List.range, List.range.loop])

theorem pair_getElem_sublist {α : Type} :
    ∀ (l : List α) (i j : Nat) (hi : i < l.length) (hj : j < l.length), i < j →
      List.Sublist [l[i], l[j]] l := by
  intro l
  induction l with
  | nil => intro i j hi; simp at hi
  | cons a t ih =>
    intro i j hi hj hij
    cases i with
    | zero =>
      obtain ⟨k, rfl⟩ : ∃ k, j = k + 1 := ⟨j - 1, by omega⟩
      simp only [List.getElem_cons_zero, List.getElem_cons_succ]
      exact List.Sublist.cons₂ a
        (List.singleton_sublist.mpr (List.getElem_mem (by simpa using hj)))
    | succ m =>
      obtain ⟨k, rfl⟩ : ∃ k, j = k + 1 := ⟨j - 1, by omega⟩
      simp only [List.getElem_cons_succ]
      exact (ih m k (by simpa using hi) (by simpa using hj) (by omega)).cons a

theorem indexOf_lt_of_pair_sublist {α : Type} [DecidableEq α] :
    ∀ (l : List α) (x y : α), List.Sublist [x, y] l → l.Nodup →
      l.indexOf x < l.indexOf y := by
  intro l
  induction l with
  | nil => intro x y h; cases h
  | cons a t ih =>
    intro x y h hnd
    have hanotin : a ∉ t := (List.nodup_cons.mp hnd).1
    have hndt : t.Nodup := (List.nodup_cons.mp hnd).2
    cases h with
    | cons _ h2 =>
      have hx : x ∈ t := h2.subset (by simp)
      have hy : y ∈ t := h2.subset (by simp)
      have hax : a ≠ x := fun he => hanotin (by rw [he]; exact hx)
      have hay : a ≠ y := fun he => hanotin (by rw [he]; exact hy)
      rw [List.indexOf_cons_ne t hax, List.indexOf_cons_ne t hay]
      exact Nat.succ_lt_succ (ih x y h2 hndt)
    | cons₂ _ h2 =>
      have hy : y ∈ t := h2.subset (by simp)
      have hay : a ≠ y := fun he => hanotin (by rw [he]; exact hy)
      rw [List.indexOf_cons_self, List.indexOf_cons_ne t hay]
      exact Nat.succ_pos _

theorem indexOf_getElem_of_nodup {α : Type} [DecidableEq α] (l : List α) (hnd : l.Nodup)
    (i : Nat) (hi : i < l.length) : l.indexOf l[i] = i := by
  have hmem : l[i] ∈ l := List.getElem_mem hi
  have hlt : l.indexOf l[i] < l.length := List.indexOf_lt_length.mpr hmem
  exact hnd.getElem_inj_iff.mp (List.getElem_indexOf hlt)

theorem mem_sortedResource_iff (bs : List Batch) (r : Nat) (v : Batch) :
    v ∈ sortedResource bs r ↔ v ∈ bs ∧ v.resource = r := by
  simp [sortedResource, sortByStart, List.mem_insertionSort, List.mem_filter]

theorem sortedResource_nodup (bs : List Batch) (r : Nat)
    (h : (bs.filter fun b => decide (b.resource = r)).Nodup) :
    (sortedResource bs r).Nodup :=
  (List.perm_insertionSort startLE _).nodup_iff.mpr h

theorem sortedResource_sorted (bs : List Batch) (r : Nat) :
    (sortedResource bs r).Pairwise startLE :=
  List.sorted_insertionSort startLE _

theorem sortedResource_start_le (bs : List Batch) (r : Nat) (i j : Nat) (hij : i ≤ j)
    (hj : j < (sortedResource bs r).length) :
    ((sortedResource bs r)[i]).start ≤ ((sortedResource bs r)[j]).start := by
  rcases Nat.eq_or_lt_of_le hij with heq | hlt
  · subst heq; exact le_refl _
  · have h := sortedResource_sorted bs r
    rw [List.pairwise_iff_getElem] at h
    exact h i j (by omega) hj hlt

theorem pair_sublist_filter (bs : List Batch) (r : Nat) (i j : Nat)
    (hi : i < bs.length) (hj : j < bs.length) (hij : i < j)
    (hir : (bs[i]).resource = r) (hjr : (bs[j]).resource = r) :
    List.Sublist [bs[i], bs[j]] (bs.filter fun b => decide (b.resource = r)) := by
  have h1 := (pair_getElem_sublist bs i j hi hj hij).filter
    (fun b => decide (b.resource = r))
  simpa [List.filter, hir, hjr] using h1

theorem shift_batches_of_nonpos (cap : Int) (bs : List Batch) (bi : Nat) (s : Int)
    (h : shiftMaxOf cap bs bi ≤ 0) : shift_batches cap bs bi s = bs := by
  unfold shift_batches
  split
  · rfl
  · rfl

theorem shift_batches_of_pos (cap : Int) (bs : List Batch) (bi : Nat) (s : Int)
    (hne : bs ≠ []) (h : ¬ shiftMaxOf cap bs bi ≤ 0) :
    shift_batches cap bs bi s = bs.set bi
      ⟨(bs.getD bi dummyBatch).resource, (bs.getD bi dummyBatch).tasks,
       (bs.getD bi dummyBatch).start + s, (bs.getD bi dummyBatch).stop + s⟩ := by
  unfold shift_batches
  rw [if_neg (by simpa [List.isEmpty_iff] using hne), if_neg h]

theorem profileOf_shift (cap : Int) (bs : List Batch) (bi : Nat) (s : Int) :
    profileOf (shift_batches cap bs bi s) = profileOf bs := by
  by_cases hm : shiftMaxOf cap bs bi ≤ 0
  · rw [shift_batches_of_nonpos cap bs bi s hm]
  · by_cases hne : bs = []
    · subst hne; rfl
    · rw [shift_batches_of_pos cap bs bi s hne hm]
      simp only [profileOf, List.map_set]
      have h1 : ((bs.getD bi dummyBatch).resource, (bs.getD bi dummyBatch).tasks) =
          (bs.map fun b => (b.resource, b.tasks)).getD bi
            ((dummyBatch.resource, dummyBatch.tasks)) :=
        (getD_map (fun b => (b.resource, b.tasks)) bs bi dummyBatch).symm
      rw [h1, set_getD_self]

theorem length_shift_batches (cap : Int) (bs : List Batch) (bi : Nat) (s : Int) :
    (shift_batches cap bs bi s).length = bs.length := by
  have h := congrArg List.length (profileOf_shift cap bs bi s)
  simpa [profileOf] using h

theorem filterTasks_profile (r : Nat) : ∀ (bs : List Batch),
    ((bs.filter fun b => decide (b.resource = r)).map Batch.tasks) =
      (((profileOf bs).filter fun e => decide (e.1 = r)).map Prod.snd) := by
  intro bs
  induction bs with
  | nil => rfl
  | cons b t ih =>
    by_cases h : b.resource = r <;>
      simp [profileOf, List.filter_cons, h, ih] <;>
      simpa [profileOf] using ih

theorem mem_sortedResource_of_pos (bs : List Batch) (r : Nat) (i : Nat)
    (hi : i < bs.length) (hr : (bs[i]).resource = r) :
    bs[i] ∈ sortedResource bs r :=
  (mem_sortedResource_iff bs r _).mpr ⟨List.getElem_mem hi, hr⟩

theorem indexOf_B_lt_indexOf_W (bs : List Batch) (B : Batch) (p0 q : Nat)
    (hp : p0 < bs.length) (hq : q < bs.length) (hB : bs[p0] = B)
    (hres : (bs[q]).resource = B.resource)
    (horder : B.start < (bs[q]).start ∨ (B.start = (bs[q]).start ∧ p0 < q))
    (hndv : (bs.filter fun b => decide (b.resource = B.resource)).Nodup) :
    B ∈ sortedResource bs B.resource ∧ bs[q] ∈ sortedResource bs B.resource ∧
      (sortedResource bs B.resource).indexOf B <
        (sortedResource bs B.resource).indexOf (bs[q]) := by
  have hBres : (bs[p0]).resource = B.resource := by rw [hB]
  have hBmem : B ∈ sortedResource bs B.resource :=
    (mem_sortedResource_iff bs B.resource B).mpr ⟨hB ▸ List.getElem_mem hp, rfl⟩
  have hWmem : bs[q] ∈ sortedResource bs B.resource := mem_sortedResource_of_pos bs _ q hq hres
  refine ⟨hBmem, hWmem, ?_⟩
  have hrbnd : (sortedResource bs B.resource).Nodup := sortedResource_nodup bs _ hndv
  rcases horder with hlt | ⟨heq, hpq⟩
  · -- strict start order: positions in the sorted list follow automatically
    have hWne : bs[q] ≠ B := fun he => absurd (he ▸ hlt) (lt_irrefl _)
    have hiB : (sortedResource bs B.resource).indexOf B <
        (sortedResource bs B.resource).length := List.indexOf_lt_length.mpr hBmem
    have hiW : (sortedResource bs B.resource).indexOf (bs[q]) <
        (sortedResource bs B.resource).length := List.indexOf_lt_length.mpr hWmem
    by_contra hcon
    push_neg at hcon
    rcases Nat.eq_or_lt_of_le hcon with heq2 | hlt2
    · exact hWne (List.indexOf_inj hWmem hBmem |>.mp heq2)
    · have h3 := sortedResource_start_le bs B.resource _ _ (Nat.le_of_lt hlt2) hiB
      rw [List.getElem_indexOf hiB, List.getElem_indexOf hiW] at h3
      omega
  · -- equal starts: stability of the sort preserves the position order
    have hpair := pair_sublist_filter bs B.resource p0 q hp hq hpq hBres hres
    rw [hB] at hpair
    have hpw : List.Pairwise startLE [B, bs[q]] := by
      refine List.pairwise_cons.mpr ⟨?_, by simp⟩
      intro b hb
      rw [List.mem_singleton.mp hb]
      exact le_of_eq heq
    have hsub : List.Sublist [B, bs[q]] (sortedResource bs B.resource) :=
      List.sublist_insertionSort hpw hpair
    have hne : B ≠ bs[q] := by
      have : [B, bs[q]].Nodup := hndv.sublist hpair
      exact (List.nodup_cons.mp this).1 ∘ fun he => he ▸ List.mem_singleton.mpr rfl
    exact indexOf_lt_of_pair_sublist _ B (bs[q]) hsub hrbnd

theorem shiftMaxOf_nonpos_of_pinned (maxIdle : Int) (bs : List Batch) (B : Batch)
    (p0 q : Nat) (hp : p0 < bs.length) (hq : q < bs.length) (hB : bs[p0] = B)
    (hres : (bs[q]).resource = B.resource) (hstart : (bs[q]).start ≤ B.stop)
    (horder : B.start < (bs[q]).start ∨ (B.start = (bs[q]).start ∧ p0 < q))
    (hndv : (bs.filter fun b => decide (b.resource = B.resource)).Nodup)
    (bi : Nat) (hbi : bi < bs.length) (hbiB : bs[bi] = B) :
    shiftMaxOf maxIdle bs bi ≤ 0 := by
  obtain ⟨hBmem, hWmem, hBltW⟩ := indexOf_B_lt_indexOf_W bs B p0 q hp hq hB hres horder hndv
  have hiW : (sortedResource bs B.resource).indexOf (bs[q]) <
      (sortedResource bs B.resource).length := List.indexOf_lt_length.mpr hWmem
  have hidxlt : (sortedResource bs B.resource).indexOf B <
      (sortedResource bs B.resource).length - 1 := by omega
  have h2 : ((sortedResource bs B.resource).getD
      ((sortedResource bs B.resource).indexOf B + 1) dummyBatch).start ≤ (bs[q]).start := by
    rw [List.getD_eq_getElem _ _ (by omega : (sortedResource bs B.resource).indexOf B + 1 <
      (sortedResource bs B.resource).length)]
    have h3 := sortedResource_start_le bs B.resource ((sortedResource bs B.resource).indexOf B + 1)
      ((sortedResource bs B.resource).indexOf (bs[q])) hBltW hiW
    rwa [List.getElem_indexOf hiW] at h3
  simp only [shiftMaxOf]
  rw [List.getD_eq_getElem bs dummyBatch hbi, hbiB, if_pos hidxlt]
  have h4 : min maxIdle (min (((sortedResource bs B.resource).getD
      ((sortedResource bs B.resource).indexOf B + 1) dummyBatch).start - B.stop)
      (B.start - (if 0 < (sortedResource bs B.resource).indexOf B then
        ((sortedResource bs B.resource).getD ((sortedResource bs B.resource).indexOf B - 1)
          dummyBatch).stop else 0))) ≤
      ((sortedResource bs B.resource).getD
        ((sortedResource bs B.resource).indexOf B + 1) dummyBatch).start - B.stop :=
    le_trans (min_le_right _ _) (min_le_left _ _)
  omega

theorem shiftInv_step (maxIdle : Int) (B : Batch) (prof : List (Nat × List Nat)) (p0 : Nat)
    (hndp : ((prof.filter fun e => decide (e.1 = B.resource)).map Prod.snd).Nodup)
    (bs bs2 : List Batch) (hinv : ShiftInv B prof p0 bs)
    (hstep : ShiftStep maxIdle bs bs2) : ShiftInv B prof p0 bs2 := by
  obtain ⟨hprof, hp, hB, q, hq, hqne, hres, hstart, horder⟩ := hinv
  obtain ⟨bi, s, hbi, hrange, rfl⟩ := hstep
  have hndt : ((bs.filter fun b => decide (b.resource = B.resource)).map Batch.tasks).Nodup := by
    rw [filterTasks_profile, hprof]
    exact hndp
  have hndv : (bs.filter fun b => decide (b.resource = B.resource)).Nodup := hndt.of_map
  have hprof2 : profileOf (shift_batches maxIdle bs bi s) = prof := by
    rw [profileOf_shift]
    exact hprof
  by_cases hm : shiftMaxOf maxIdle bs bi ≤ 0
  · rw [shift_batches_of_nonpos maxIdle bs bi s hm]
    exact ⟨hprof, hp, hB, q, hq, hqne, hres, hstart, horder⟩
  · have hne : bs ≠ [] := by
      intro h
      rw [h] at hbi
      simp at hbi
    have hset := shift_batches_of_pos maxIdle bs bi s hne hm
    by_cases hbiB : bs[bi] = B
    · exact absurd (shiftMaxOf_nonpos_of_pinned maxIdle bs B p0 q hp hq hB hres hstart
        horder hndv bi hbi hbiB) hm
    · by_cases hbiq : bi = q
      · -- the witness batch itself is shifted: its sorted predecessor becomes the new witness
        subst hbiq
        obtain ⟨hBmem, hWmem, hBltW⟩ := indexOf_B_lt_indexOf_W bs B p0 bi hp hbi hB hres
          horder hndv
        have hrbnd : (sortedResource bs B.resource).Nodup := sortedResource_nodup bs _ hndv
        have hiW : (sortedResource bs B.resource).indexOf (bs[bi]) <
            (sortedResource bs B.resource).length := List.indexOf_lt_length.mpr hWmem
        have hiB : (sortedResource bs B.resource).indexOf B <
            (sortedResource bs B.resource).length := List.indexOf_lt_length.mpr hBmem
        have h0W : 0 < (sortedResource bs B.resource).indexOf (bs[bi]) := by omega
        have hiW1 : (sortedResource bs B.resource).indexOf (bs[bi]) - 1 <
            (sortedResource bs B.resource).length := by omega
        -- the computed window is bounded by the gap to the sorted predecessor
        have hmle : shiftMaxOf maxIdle bs bi ≤ (bs[bi]).start -
            ((sortedResource bs B.resource)[(sortedResource bs B.resource).indexOf (bs[bi]) - 1]).stop := by
          simp only [shiftMaxOf]
          rw [List.getD_eq_getElem bs dummyBatch hbi, hres, if_pos h0W,
            List.getD_eq_getElem _ _ hiW1]
          split
          · exact le_trans (min_le_right _ _) (min_le_right _ _)
          · exact min_le_right _ _
        have hVstop : ((sortedResource bs B.resource)[(sortedResource bs
            B.resource).indexOf (bs[bi]) - 1]).stop < (bs[bi]).start := by omega
        have hVne : ((sortedResource bs B.resource)[(sortedResource bs
            B.resource).indexOf (bs[bi]) - 1]) ≠ B := by
          intro he
          rw [he] at hVstop
          omega
        have hrbB : (sortedResource bs B.resource)[(sortedResource bs
            B.resource).indexOf B] = B := List.getElem_indexOf hiB
        have hrbW : (sortedResource bs B.resource)[(sortedResource bs
            B.resource).indexOf (bs[bi])] = bs[bi] := List.getElem_indexOf hiW
        have hidxne : (sortedResource bs B.resource).indexOf (bs[bi]) - 1 ≠
            (sortedResource bs B.resource).indexOf B := by
          intro he
          apply hVne
          have h5 := indexOf_getElem_of_nodup _ hrbnd _ hiW1
          exact (List.indexOf_inj (List.getElem_mem hiW1) hBmem).mp (by rw [h5]; exact he)
        have hBltV : (sortedResource bs B.resource).indexOf B <
            (sortedResource bs B.resource).indexOf (bs[bi]) - 1 := by omega
        have hVmem : ((sortedResource bs B.resource)[(sortedResource bs
            B.resource).indexOf (bs[bi]) - 1]) ∈ sortedResource bs B.resource :=
          List.getElem_mem hiW1
        obtain ⟨hVbs, hVres⟩ := (mem_sortedResource_iff bs B.resource _).mp hVmem
        obtain ⟨qV, hqV, hVq⟩ := List.mem_iff_getElem.mp hVbs
        have hqVp0 : qV ≠ p0 := by
          intro he
          subst he
          apply hVne
          rw [← hVq]
          exact hB
        have hVneW : ((sortedResource bs B.resource)[(sortedResource bs
            B.resource).indexOf (bs[bi]) - 1]) ≠ bs[bi] := by
          intro he
          have h5 := indexOf_getElem_of_nodup _ hrbnd _ hiW1
          rw [he] at h5
          omega
        have hqVq : qV ≠ bi := by
          intro he
          subst he
          exact hVneW hVq.symm
        have hVstart_le : ((sortedResource bs B.resource)[(sortedResource bs
            B.resource).indexOf (bs[bi]) - 1]).start ≤ (bs[bi]).start := by
          have := sortedResource_start_le bs B.resource
            ((sortedResource bs B.resource).indexOf (bs[bi]) - 1)
            ((sortedResource bs B.resource).indexOf (bs[bi])) (by omega) hiW
          rwa [hrbW] at this
        have hBstart_le : B.start ≤ ((sortedResource bs B.resource)[(sortedResource bs
            B.resource).indexOf (bs[bi]) - 1]).start := by
          have := sortedResource_start_le bs B.resource
            ((sortedResource bs B.resource).indexOf B)
            ((sortedResource bs B.resource).indexOf (bs[bi]) - 1) (by omega) hiW1
          rwa [hrbB] at this
        rw [hset]
        refine ⟨by rw [← hset]; exact hprof2, by simpa using hp, ?_, qV, by simpa using hqV,
          hqVp0, ?_, ?_, ?_⟩
        · rw [List.getElem_set_ne hqne]
          exact hB
        · rw [List.getElem_set_ne (Ne.symm hqVq), hVq]
          exact hVres
        · rw [List.getElem_set_ne (Ne.symm hqVq), hVq]
          exact le_trans hVstart_le hstart
        · rw [List.getElem_set_ne (Ne.symm hqVq), hVq]
          rcases lt_or_eq_of_le hBstart_le with hlt | heq
          · left
            exact hlt
          · right
            refine ⟨heq, ?_⟩
            by_contra hc
            push_neg at hc
            have hqVlt : qV < p0 := lt_of_le_of_ne hc hqVp0
            have hsub := pair_sublist_filter bs B.resource qV p0 hqV hp hqVlt
              (by rw [hVq]; exact hVres) (by rw [hB])
            rw [hVq, hB] at hsub
            have hpw : List.Pairwise startLE [(sortedResource bs B.resource)[(sortedResource bs
                B.resource).indexOf (bs[bi]) - 1], B] := by
              refine List.pairwise_cons.mpr ⟨?_, by simp⟩
              intro b hb
              rw [List.mem_singleton.mp hb]
              exact le_of_eq heq.symm
            have hsub2 : List.Sublist [(sortedResource bs B.resource)[(sortedResource bs
                B.resource).indexOf (bs[bi]) - 1], B] (sortedResource bs B.resource) :=
              List.sublist_insertionSort hpw hsub
            have hVB := indexOf_lt_of_pair_sublist _ _ B hsub2 hrbnd
            rw [indexOf_getElem_of_nodup _ hrbnd _ hiW1] at hVB
            omega
      · -- neither B nor the witness is touched
        rw [hset]
        have hbip0 : bi ≠ p0 := fun he => hbiB (he ▸ hB)
        refine ⟨by rw [← hset]; exact hprof2, by simpa using hp, ?_, q, by simpa using hq,
          hqne, ?_, ?_, ?_⟩
        · rw [List.getElem_set_ne hbip0]
          exact hB
        · rw [List.getElem_set_ne hbiq]
          exact hres
        · rw [List.getElem_set_ne hbiq]
          exact hstart
        · rcases horder with h1 | ⟨h1, h2⟩
          · left
            rw [List.getElem_set_ne hbiq]
            exact h1
          · right
            rw [List.getElem_set_ne hbiq]
            exact ⟨h1, h2⟩

theorem shiftInv_init (bs0 : List Batch) (B : Batch) (p0 : Nat)
    (hndv : (bs0.filter fun b => decide (b.resource = B.resource)).Nodup)
    (hp : p0 < bs0.length) (hB : bs0[p0] = B)
    (hidx : (sortedResource bs0 B.resource).indexOf B <
      (sortedResource bs0 B.resource).length - 1)
    (hnext : ((sortedResource bs0 B.resource).getD
      ((sortedResource bs0 B.resource).indexOf B + 1) dummyBatch).start ≤ B.stop) :
    ShiftInv B (profileOf bs0) p0 bs0 := by
  have hrbnd : (sortedResource bs0 B.resource).Nodup := sortedResource_nodup bs0 _ hndv
  have hBmem : B ∈ sortedResource bs0 B.resource :=
    (mem_sortedResource_iff bs0 B.resource B).mpr ⟨hB ▸ List.getElem_mem hp, rfl⟩
  have hiB : (sortedResource bs0 B.resource).indexOf B <
      (sortedResource bs0 B.resource).length := List.indexOf_lt_length.mpr hBmem
  have hiW : (sortedResource bs0 B.resource).indexOf B + 1 <
      (sortedResource bs0 B.resource).length := by omega
  have hWmem : ((sortedResource bs0 B.resource)[(sortedResource bs0 B.resource).indexOf B +
      1]) ∈ sortedResource bs0 B.resource := List.getElem_mem hiW
  obtain ⟨hWbs0, hWres⟩ := (mem_sortedResource_iff bs0 B.resource _).mp hWmem
  obtain ⟨q, hq, hWq⟩ := List.mem_iff_getElem.mp hWbs0
  have hWneB : ((sortedResource bs0 B.resource)[(sortedResource bs0 B.resource).indexOf B +
      1]) ≠ B := by
    intro he
    have h5 := indexOf_getElem_of_nodup _ hrbnd _ hiW
    rw [he] at h5
    omega
  have hqp0 : q ≠ p0 := by
    intro he
    subst he
    apply hWneB
    rw [← hWq]
    exact hB
  have hnext2 : ((sortedResource bs0 B.resource)[(sortedResource bs0 B.resource).indexOf B +
      1]).start ≤ B.stop := by
    rwa [List.getD_eq_getElem _ _ hiW] at hnext
  have h6 : B.start ≤ ((sortedResource bs0 B.resource)[(sortedResource bs0
      B.resource).indexOf B + 1]).start := by
    have h7 := sortedResource_start_le bs0 B.resource ((sortedResource bs0
      B.resource).indexOf B) ((sortedResource bs0 B.resource).indexOf B + 1) (by omega) hiW
    rwa [List.getElem_indexOf hiB] at h7
  refine ⟨rfl, hp, hB, q, hq, hqp0, ?_, ?_, ?_⟩
  · rw [hWq]
    exact hWres
  · rw [hWq]
    exact hnext2
  · rw [hWq]
    rcases lt_or_eq_of_le h6 with hlt | heq
    · left
      exact hlt
    · right
      refine ⟨heq, ?_⟩
      by_contra hc
      push_neg at hc
      have hqlt : q < p0 := lt_of_le_of_ne hc hqp0
      have hsub := pair_sublist_filter bs0 B.resource q p0 hq hp hqlt
        (by rw [hWq]; exact hWres) (by rw [hB])
      rw [hWq, hB] at hsub
      have hpw : List.Pairwise startLE [(sortedResource bs0 B.resource)[(sortedResource bs0
          B.resource).indexOf B + 1], B] := by
        refine List.pairwise_cons.mpr ⟨?_, by simp⟩
        intro b hb
        rw [List.mem_singleton.mp hb]
        exact le_of_eq heq.symm
      have hsub2 : List.Sublist [(sortedResource bs0 B.resource)[(sortedResource bs0
          B.resource).indexOf B + 1], B] (sortedResource bs0 B.resource) :=
        List.sublist_insertionSort hpw hsub
      have hWB := indexOf_lt_of_pair_sublist _ _ B hsub2 hrbnd
      rw [indexOf_getElem_of_nodup _ hrbnd _ hiW] at hWB
      omega

/-- C9: a batch with zero idle slack on both sides (its start equals the
    previous same-resource batch's end, or 0 when it is first, and the next
    same-resource batch's start equals its end) keeps its start and end (in
    fact its whole record) unchanged under any number of shift moves, for
    every choice of shifted batch and drawn shift amount; and whenever the
    computed shift window of _shift_batches is not positive the move is a
    no-op on the whole batch list. The task lists of the same-resource
    batches are assumed pairwise distinct so that batches are identified by
    value, as list.index does in the Python code. -/
theorem shift_zero_slack_frozen (maxIdle : Int) (bs0 : List Batch) (B : Batch) (p0 : Nat)
    (hndt : ((bs0.filter fun b => decide (b.resource = B.resource)).map Batch.tasks).Nodup)
    (hp : p0 < bs0.length) (hB : bs0[p0] = B)
    (hidx : (sortedResource bs0 B.resource).indexOf B <
      (sortedResource bs0 B.resource).length - 1)
    (hnext : ((sortedResource bs0 B.resource).getD
      ((sortedResource bs0 B.resource).indexOf B + 1) dummyBatch).start = B.stop)
    (hprev : B.start = (if 0 < (sortedResource bs0 B.resource).indexOf B then
      ((sortedResource bs0 B.resource).getD
        ((sortedResource bs0 B.resource).indexOf B - 1) dummyBatch).stop else 0)) :
    (∀ bs, Relation.ReflTransGen (ShiftStep maxIdle) bs0 bs →
      ∃ hl : p0 < bs.length, bs[p0] = B) ∧
    (∀ (bs : List Batch) (bi : Nat) (s : Int),
      shiftMaxOf maxIdle bs bi ≤ 0 → shift_batches maxIdle bs bi s = bs) := by
  constructor
  · intro bs hsteps
    have hndp : (((profileOf bs0).filter fun e =>
        decide (e.1 = B.resource)).map Prod.snd).Nodup := by
      rw [← filterTasks_profile]
      exact hndt
    have hinv : ShiftInv B (profileOf bs0) p0 bs := by
      induction hsteps with
      | refl => exact shiftInv_init bs0 B p0 hndt.of_map hp hB hidx (le_of_eq hnext)
      | tail _ hstep ih => exact shiftInv_step maxIdle B (profileOf bs0) p0 hndp _ _ ih hstep
    obtain ⟨_, hl, hBeq, _⟩ := hinv
    exact ⟨hl, hBeq⟩
  · intro bs bi s h
    exact shift_batches_of_nonpos maxIdle bs bi s h

theorem shift_zero_slack_frozen_witness :
    ∃ hl : 0 < (shift_batches 7 [Batch.mk 0 [0] 0 5, Batch.mk 0 [1] 5 8] 0 3).length,
      (shift_batches 7 [Batch.mk 0 [0] 0 5, Batch.mk 0 [1] 5 8] 0 3)[0] =
        Batch.mk 0 [0] 0 5 :=
  (shift_zero_slack_frozen 7 [Batch.mk 0 [0] 0 5, Batch.mk 0 [1] 5 8]
      (Batch.mk 0 [0] 0 5) 0 (by decide) (by decide) (by decide) (by decide)
      (by decide) (by decide)).1
    (shift_batches 7 [Batch.mk 0 [0] 0 5, Batch.mk 0 [1] 5 8] 0 3)
    (Relation.ReflTransGen.single ⟨0, 3, by decide, by decide, rfl⟩)
